import Mathlib

/-!
Verification development for the ABET consolidation tool's change-detection
and notification workflow.

The Python sources embedded here:
* `difflib.unified_diff` / `difflib.SequenceMatcher` (CPython standard library,
  as invoked by `src/abet_pdf_simple.py:mindiff_text_files` and
  `src/email_auto.py:diff_files` with `isjunk=None` and `autojunk=True`),
* `src/email_auto.py:diff_files`,
* `src/abet_pdf_simple.py:read_pdf_text`, `find_pdf_url_on_page`,
  `mindiff_text_files`,
* `src/abet_scraper.py:find_pdf_url_on_page`,
* `scripts/fetch_pdfs.py:fetch_pdf` and the fetch loop of `main`.

Machine integers are modelled as `Nat` (all the integer arithmetic in these
code paths stays non-negative); file systems as finite maps `String → Option
String`; external effects (HTTP download, per-page PDF text extraction, SMTP
delivery) as explicit outcome parameters of type `Except String _`.
-/

namespace ABET

/-- Python list slicing `l[i:j]` (with the usual clamping semantics). -/
def sliceList {α : Type} (l : List α) (i j : ℕ) : List α :=
  (l.drop i).take (j - i)

/-- A `Match` triple `(a, b, size)` as returned by
`difflib.SequenceMatcher.find_longest_match`. -/
structure Best where
  i : ℕ
  j : ℕ
  size : ℕ
  deriving DecidableEq, Repr

/-- Number of occurrences of `x` in `b` (`len(b2j[x])` before the popularity
purge in `SequenceMatcher.__chain_b`). -/
def countEq (b : List String) (x : String) : ℕ :=
  (b.filter (fun y => y = x)).length

/-- `SequenceMatcher.__chain_b`'s autojunk rule: with `autojunk=True` and
`len(b) >= 200`, elements occurring more than `len(b) // 100 + 1` times are
"popular" and are deleted from `b2j`.  (They go into `bpopular`, not `bjunk`,
so `isbjunk` stays `False` for them.) -/
def isPopular (b : List String) (x : String) : Bool :=
  decide (200 ≤ b.length) && decide (b.length / 100 + 1 < countEq b x)

/-- `b2j[x]`: the indices at which `x` occurs in `b`, in increasing order,
with popular elements purged (`b2j.get(x, [])` semantics: missing key gives
the empty list). -/
def b2j (b : List String) (x : String) : List ℕ :=
  if isPopular b x then []
  else (List.range b.length).filter (fun j => b.getD j "" = x)

/-- The candidate run length computed in `find_longest_match`'s inner loop:
`k = j2len.get(j-1, 0) + 1` (the key `-1` for `j = 0` is never present, so it
defaults to `0`).  `f` is the previous row's `j2len` as a total function
defaulting to `0`. -/
def candK (f : ℕ → ℕ) (j : ℕ) : ℕ :=
  (if j = 0 then 0 else f (j - 1)) + 1

/-- The `if k > bestsize: besti, bestj, bestsize = i-k+1, j-k+1, k` update. -/
def bestStep (i : ℕ) (f : ℕ → ℕ) (m : Best) (j : ℕ) : Best :=
  if m.size < candK f j then ⟨i + 1 - candK f j, j + 1 - candK f j, candK f j⟩ else m

/-- The inner loop of `find_longest_match` over `for j in b2j.get(a[i], [])`:
`if j < blo: continue`, `if j >= bhi: break`, then record
`newj2len[j] = j2len.get(j-1, 0) + 1` and update the best match.  Returns the
new `j2len` row and the updated best. -/
def flmRow (i blo bhi : ℕ) (f : ℕ → ℕ) :
    List ℕ → (ℕ → ℕ) → Best → ((ℕ → ℕ) × Best)
  | [], nw, best => (nw, best)
  | j :: js, nw, best =>
    if j < blo then flmRow i blo bhi f js nw best
    else if bhi ≤ j then (nw, best)
    else
      flmRow i blo bhi f js
        (fun j' => if j' = j then candK f j else nw j')
        (bestStep i f best j)

/-- The outer loop of `find_longest_match` over `for i in range(alo, ahi)`,
threading the `j2len` map (reset to a fresh empty map each row) and the best
match. -/
def flmRows (a b : List String) (blo bhi : ℕ) :
    List ℕ → ((ℕ → ℕ) × Best) → ((ℕ → ℕ) × Best)
  | [], st => st
  | i :: is, st =>
    flmRows a b blo bhi is
      (flmRow i blo bhi st.1 (b2j b (a.getD i "")) (fun _ => 0) st.2)

/-- First extension loop of `find_longest_match`:
`while besti > alo and bestj > blo and a[besti-1] == b[bestj-1]` (the
`not isbjunk(...)` conjunct is always true because `isjunk` is `None`, so
`bjunk` is empty).  The fuel argument equals `besti`, which bounds the number
of iterations exactly. -/
def extendLower (a b : List String) (alo blo : ℕ) :
    ℕ → Best → Best
  | 0, best => best
  | fuel + 1, best =>
    if alo < best.i ∧ blo < best.j ∧
        a.getD (best.i - 1) "" = b.getD (best.j - 1) "" then
      extendLower a b alo blo fuel ⟨best.i - 1, best.j - 1, best.size + 1⟩
    else best

/-- Second extension loop of `find_longest_match`:
`while besti+bestsize < ahi and bestj+bestsize < bhi and
a[besti+bestsize] == b[bestj+bestsize]`.  The fuel `ahi - (besti + bestsize)`
bounds the iteration count exactly.  The two junk-extension loops that follow
in the Python source never run (`bjunk` is empty when `isjunk` is `None`), so
they are omitted. -/
def extendUpper (a b : List String) (ahi bhi : ℕ) :
    ℕ → Best → Best
  | 0, best => best
  | fuel + 1, best =>
    if best.i + best.size < ahi ∧ best.j + best.size < bhi ∧
        a.getD (best.i + best.size) "" = b.getD (best.j + best.size) "" then
      extendUpper a b ahi bhi fuel ⟨best.i, best.j, best.size + 1⟩
    else best

/-- `SequenceMatcher.find_longest_match(alo, ahi, blo, bhi)` with
`isjunk=None`. -/
def find_longest_match (a b : List String) (alo ahi blo bhi : ℕ) : Best :=
  let st := flmRows a b blo bhi (List.range' alo (ahi - alo))
    ((fun _ => 0), ⟨alo, blo, 0⟩)
  let best := extendLower a b alo blo st.2.i st.2
  extendUpper a b ahi bhi (ahi - (best.i + best.size)) best

/-- The divide-and-conquer of `get_matching_blocks`, written as the direct
recursion the CPython comments describe (the worklist-plus-sort in the source
computes the same sorted list: every block found left of the pivot has a
strictly smaller `a`-index than the pivot, and every block right of it a
strictly larger one, so in-order recursion yields the sorted order).  `fuel`
bounds the recursion depth; `(ahi - alo) + (bhi - blo) + 1` always suffices. -/
def matchingBlocksAux (a b : List String) :
    ℕ → ℕ → ℕ → ℕ → ℕ → List Best
  | 0, _, _, _, _ => []
  | fuel + 1, alo, ahi, blo, bhi =>
    let m := find_longest_match a b alo ahi blo bhi
    if m.size = 0 then []
    else
      (if alo < m.i ∧ blo < m.j then
        matchingBlocksAux a b fuel alo m.i blo m.j else []) ++
      [m] ++
      (if m.i + m.size < ahi ∧ m.j + m.size < bhi then
        matchingBlocksAux a b fuel (m.i + m.size) ahi (m.j + m.size) bhi else [])

/-- The adjacent-block collapsing pass of `get_matching_blocks`
(`non_adjacent`), starting from the dummy `(0, 0, 0)`. -/
def mergeBlocks : ℕ → ℕ → ℕ → List Best → List Best
  | i1, j1, k1, [] => if k1 = 0 then [] else [⟨i1, j1, k1⟩]
  | i1, j1, k1, m :: rest =>
    if i1 + k1 = m.i ∧ j1 + k1 = m.j then mergeBlocks i1 j1 (k1 + m.size) rest
    else
      (if k1 = 0 then [] else [⟨i1, j1, k1⟩]) ++ mergeBlocks m.i m.j m.size rest

/-- `SequenceMatcher.get_matching_blocks()`: recursive block finding, the
adjacency merge, then the `(len(a), len(b), 0)` sentinel. -/
def get_matching_blocks (a b : List String) : List Best :=
  mergeBlocks 0 0 0
      (matchingBlocksAux a b (a.length + b.length + 1) 0 a.length 0 b.length)
    ++ [⟨a.length, b.length, 0⟩]

/-- Opcode tags of `SequenceMatcher.get_opcodes()`. -/
inductive Tag where
  | replace | delete | insert | equal
  deriving DecidableEq, Repr

/-- A `(tag, i1, i2, j1, j2)` opcode. -/
structure Opcode where
  tag : Tag
  i1 : ℕ
  i2 : ℕ
  j1 : ℕ
  j2 : ℕ
  deriving DecidableEq, Repr

/-- The loop body of `get_opcodes()` folded over the matching blocks,
carrying the `(i, j)` cursor. -/
def opcodesAux : ℕ → ℕ → List Best → List Opcode
  | _, _, [] => []
  | i, j, m :: rest =>
    (if i < m.i ∧ j < m.j then [⟨.replace, i, m.i, j, m.j⟩]
     else if i < m.i then [⟨.delete, i, m.i, j, m.j⟩]
     else if j < m.j then [⟨.insert, i, m.i, j, m.j⟩]
     else []) ++
    (if m.size = 0 then []
     else [⟨.equal, m.i, m.i + m.size, m.j, m.j + m.size⟩]) ++
    opcodesAux (m.i + m.size) (m.j + m.size) rest

/-- `SequenceMatcher.get_opcodes()`. -/
def get_opcodes (a b : List String) : List Opcode :=
  opcodesAux 0 0 (get_matching_blocks a b)

/-- `get_grouped_opcodes`' fixup of a leading `equal` opcode:
`codes[0] = tag, max(i1, i2-n), i2, max(j1, j2-n), j2`. -/
def fixFirst (n : ℕ) : List Opcode → List Opcode
  | [] => []
  | c :: rest =>
    if c.tag = .equal then
      ⟨.equal, max c.i1 (c.i2 - n), c.i2, max c.j1 (c.j2 - n), c.j2⟩ :: rest
    else c :: rest

/-- `get_grouped_opcodes`' fixup of a trailing `equal` opcode:
`codes[-1] = tag, i1, min(i2, i1+n), j1, min(j2, j1+n)`. -/
def fixLast (n : ℕ) : List Opcode → List Opcode
  | [] => []
  | [c] =>
    if c.tag = .equal then
      [⟨.equal, c.i1, min c.i2 (c.i1 + n), c.j1, min c.j2 (c.j1 + n)⟩]
    else [c]
  | c :: c' :: rest => c :: fixLast n (c' :: rest)

/-- The grouping loop of `get_grouped_opcodes(n)`: splits the opcode list at
`equal` runs longer than `2n`, truncating them to `n` lines of context on
each side, and drops a final group that is a single `equal` opcode. -/
def groupLoop (n : ℕ) : List Opcode → List Opcode → List (List Opcode)
  | group, [] =>
    if group = [] then []
    else if group.length = 1 ∧ (group.headD ⟨.equal, 0, 0, 0, 0⟩).tag = .equal
      then []
    else [group]
  | group, c :: rest =>
    if c.tag = .equal ∧ n + n < c.i2 - c.i1 then
      (group ++ [⟨.equal, c.i1, min c.i2 (c.i1 + n), c.j1, min c.j2 (c.j1 + n)⟩]) ::
      groupLoop n [⟨.equal, max c.i1 (c.i2 - n), c.i2, max c.j1 (c.j2 - n), c.j2⟩] rest
    else groupLoop n (group ++ [c]) rest

/-- `SequenceMatcher.get_grouped_opcodes(n)` as a list of groups. -/
def get_grouped_opcodes (a b : List String) (n : ℕ) : List (List Opcode) :=
  let codes := get_opcodes a b
  let codes := if codes = [] then [⟨.equal, 0, 1, 0, 1⟩] else codes
  groupLoop n [] (fixLast n (fixFirst n codes))

/-- `difflib._format_range_unified`. -/
def formatRangeUnified (start stop : ℕ) : String :=
  let beginning := start + 1
  let length := stop - start
  if length = 1 then toString beginning
  else toString (if length = 0 then start else beginning) ++ "," ++ toString length

/-- The per-group output of `unified_diff`: the `@@` hunk header followed by
the prefixed context/removed/added lines. -/
def hunkOf (a b : List String) (g : List Opcode) : List String :=
  match g with
  | [] => []
  | first :: rest =>
    let last := List.getLastD rest first
    ("@@ -" ++ formatRangeUnified first.i1 last.i2 ++
     " +" ++ formatRangeUnified first.j1 last.j2 ++ " @@") ::
    g.flatMap (fun c =>
      match c.tag with
      | .equal => (sliceList a c.i1 c.i2).map (fun l => " " ++ l)
      | .replace => (sliceList a c.i1 c.i2).map (fun l => "-" ++ l) ++
                    (sliceList b c.j1 c.j2).map (fun l => "+" ++ l)
      | .delete => (sliceList a c.i1 c.i2).map (fun l => "-" ++ l)
      | .insert => (sliceList b c.j1 c.j2).map (fun l => "+" ++ l))

/-- `difflib.unified_diff(a, b, fromfile, tofile, n=n, lineterm='')` as the
list of yielded lines (empty `fromfiledate`/`tofiledate`, as in the repo's
two call sites).  The `---`/`+++` header is emitted once, before the first
group, and only if there is at least one group. -/
def unifiedDiff (a b : List String) (fromfile tofile : String) (n : ℕ) :
    List String :=
  match get_grouped_opcodes a b n with
  | [] => []
  | groups => ("--- " ++ fromfile) :: ("+++ " ++ tofile) ::
      groups.flatMap (hunkOf a b)

/-! ### String and path helpers (Python semantics) -/

/-- Split a character list at `'\n'` separators (the semantics of
`"…".split('\n')`). -/
def splitOnNl : List Char → List (List Char)
  | [] => [[]]
  | c :: cs =>
    if c = '\n' then [] :: splitOnNl cs
    else
      match splitOnNl cs with
      | [] => [[c]]
      | p :: ps => (c :: p) :: ps

/-- Whether a string's last character is `'\n'`. -/
def lastIsNl (s : String) : Bool :=
  s.toList.getLastD ' ' = '\n'

/-- Python `str.splitlines()` restricted to `'\n'` boundaries (text-mode
reading already normalises `'\r\n'`/`'\r'` to `'\n'`; the exotic vertical
separators are not modelled). -/
def pySplitlines (s : String) : List String :=
  if s = "" then []
  else
    let parts := (splitOnNl s.toList).map (fun l => String.mk l)
    if lastIsNl s then parts.dropLast else parts

/-- Python `file.readlines()` on text `s`: like `splitlines(keepends=True)`
restricted to `'\n'` boundaries. -/
def pyReadlines (s : String) : List String :=
  if s = "" then []
  else
    let parts := (splitOnNl s.toList).map (fun l => String.mk l)
    if lastIsNl s then parts.dropLast.map (fun l => l ++ "\n")
    else parts.dropLast.map (fun l => l ++ "\n") ++ [parts.getLastD ""]

/-- Character-list prefix test. -/
def prefixTest : List Char → List Char → Bool
  | [], _ => true
  | _ :: _, [] => false
  | c :: cs, d :: ds => c = d && prefixTest cs ds

/-- Character-list substring test. -/
def pyInChars (sub : List Char) : List Char → Bool
  | [] => prefixTest sub []
  | c :: cs => prefixTest sub (c :: cs) || pyInChars sub cs

/-- Python's substring test `sub in s`. -/
def pyIn (sub s : String) : Bool :=
  pyInChars sub.toList s.toList

/-- POSIX `os.path.basename(p)`: everything after the last `'/'`. -/
def pyBasename (p : String) : String :=
  String.mk ((p.toList.reverse.takeWhile (fun c => c ≠ '/')).reverse)

/-- POSIX `os.path.dirname(p)`: the prefix up to the last `'/'`, with
trailing slashes stripped unless the prefix consists only of slashes. -/
def pyDirname (p : String) : String :=
  let head := (p.toList.reverse.dropWhile (fun c => c ≠ '/')).reverse
  if head = [] then ""
  else if head.all (fun c => c = '/') then String.mk head
  else String.mk ((head.reverse.dropWhile (fun c => c = '/')).reverse)

/-- The root part of POSIX `os.path.splitext(p)`: split at the last dot,
unless every basename character before that dot is itself a dot (leading
dots of a basename never start an extension). -/
def pySplitextRoot (p : String) : String :=
  let cs := p.toList
  let revBase := cs.reverse.takeWhile (fun c => c ≠ '/')
  if revBase.contains '.' then
    let revAfterDot := revBase.takeWhile (fun c => c ≠ '.')
    let baseBeforeDot := revBase.drop (revAfterDot.length + 1)
    if baseBeforeDot.any (fun c => c ≠ '.') then
      String.mk (cs.take (cs.length - (revAfterDot.length + 1)))
    else p
  else p

/-- POSIX `os.path.join(a, b)` for two components (`b.startswith('/')` and
`a.endswith('/')` are first/last-character tests since the separator is a
single character). -/
def pyJoin (a b : String) : String :=
  if b.toList.headD ' ' = '/' then b
  else if a = "" || a.toList.getLastD ' ' = '/' then a ++ b
  else a ++ "/" ++ b

/-! ### File-system model -/

/-- A file system: map from path to file content (`none` = no such file).
`os.path.exists` is `isSome`; reading uses the stored string. -/
def FS : Type := String → Option String

/-- Writing (creating or truncating) a file. -/
def fsWrite (fs : FS) (p content : String) : FS :=
  fun q => if q = p then some content else fs q

/-! ### `src/abet_pdf_simple.py` : `mindiff_text_files` -/

/-- The default output path of `mindiff_text_files`:
`os.path.join(os.path.dirname(path_a) or '.', f"{base_a}+{base_b}_diff.txt")`. -/
def defaultOutPath (path_a path_b : String) : String :=
  let a_base := pySplitextRoot (pyBasename path_a)
  let b_base := pySplitextRoot (pyBasename path_b)
  let out_name := a_base ++ "+" ++ b_base ++ "_diff.txt"
  pyJoin (if pyDirname path_a = "" then "." else pyDirname path_a) out_name

/-- `mindiff_text_files(path_a, path_b, out_path, context)`: checks both
inputs exist (else `ValueError`), reads them as line lists, computes the
unified diff with `fromfile=path_a, tofile=path_b, n=context, lineterm=''`,
writes the `'\n'`-joined diff lines (the empty string when there are none)
to the output path, and returns that path together with the new file
system. -/
def mindiff_text_files (fs : FS) (path_a path_b : String)
    (out_path : Option String) (context : ℕ) : Except String (String × FS) :=
  match fs path_a with
  | none => .error ("File not found: " ++ path_a)
  | some ta =>
    match fs path_b with
    | none => .error ("File not found: " ++ path_b)
    | some tb =>
      let a_lines := pySplitlines ta
      let b_lines := pySplitlines tb
      let outp := match out_path with
        | some o => o
        | none => defaultOutPath path_a path_b
      let diff_lines := unifiedDiff a_lines b_lines path_a path_b context
      .ok (outp, fsWrite fs outp (String.intercalate "\n" diff_lines))

/-! ### `src/abet_pdf_simple.py` / `src/abet_scraper.py` : `read_pdf_text`

Each page's `page.extract_text()` call is an external effect modelled as an
`Except String String` (exception or extracted text). -/

/-- The `for page in reader.pages: text = page.extract_text();
text_parts.append(text)` loop.  An exception raised by `extract_text`
propagates (there is no `try` around the loop in either copy of
`read_pdf_text`). -/
def pagesLoop : List (Except String String) → List String →
    Except String (List String)
  | [], acc => .ok acc.reverse
  | p :: rest, acc =>
    match p with
    | .error e => .error e
    | .ok t => pagesLoop rest (t :: acc)

/-- `read_pdf_text(pdf_bytes)` given the per-page extraction outcomes:
`'\n'.join(text_parts)` when every page extraction returns, the first
exception otherwise. -/
def read_pdf_text (pages : List (Except String String)) :
    Except String String :=
  (pagesLoop pages []).map (String.intercalate "\n")

/-! ### `find_pdf_url_on_page` (both variants)

An HTML anchor as seen through BeautifulSoup: `text` is `a.string` (absent
when the tag has non-trivial child structure), `href` the attribute value,
`classes` the `class` list.  `soup.find` returns the first matching anchor
in document order; `urljoin` is passed in as a parameter (an external
library function whose internals neither variant depends on). -/
structure Anchor where
  text : Option String
  href : Option String
  classes : List String
  deriving DecidableEq, Repr

/-- ASCII lowercasing of one character (`str.lower()` on the ASCII range). -/
def asciiLowerChar (c : Char) : Char :=
  if 'A' ≤ c ∧ c ≤ 'Z' then Char.ofNat (c.toNat + 32) else c

/-- `str.lower()`; the strings this model applies it to are ASCII. -/
def asciiLower (s : String) : String :=
  String.mk (s.toList.map asciiLowerChar)

/-- Python truthiness of `tag.get('href')`: present and non-empty. -/
def hrefTruthy (an : Anchor) : Bool :=
  match an.href with
  | some h => h ≠ ""
  | none => false

/-- `src/abet_pdf_simple.py:find_pdf_url_on_page(page_url, link_text)`:
first `soup.find('a', string=lambda text: text and link_text in text)`
(a case-sensitive substring test), then the fallback
`soup.find('a', class_='button')`; raises `ValueError` when neither
produces an anchor with a truthy `href`. -/
def find_pdf_url_on_page (urljoin : String → String → String)
    (page_url link_text : String) (anchors : List Anchor) :
    Except String String :=
  let download_link := anchors.find? (fun an =>
    match an.text with
    | none => false
    | some t => pyIn link_text t)
  match download_link with
  | some an =>
    if hrefTruthy an then .ok (urljoin page_url (an.href.getD ""))
    else
      match anchors.find? (fun an' => an'.classes.contains "button") with
      | some an' =>
        if hrefTruthy an' then .ok (urljoin page_url (an'.href.getD ""))
        else .error ("Could not find PDF download link on page: " ++ page_url)
      | none => .error ("Could not find PDF download link on page: " ++ page_url)
  | none =>
    match anchors.find? (fun an' => an'.classes.contains "button") with
    | some an' =>
      if hrefTruthy an' then .ok (urljoin page_url (an'.href.getD ""))
      else .error ("Could not find PDF download link on page: " ++ page_url)
    | none => .error ("Could not find PDF download link on page: " ++ page_url)

/-- `src/abet_scraper.py:find_pdf_url_on_page(page_url, link_text)`:
`soup.find("a", href=True, string=lambda s: s and getlink.lower() in
s.lower())` where `getlink` is the local constant `'Download the Criteria'`
— the `link_text` parameter is ignored.  (`.lower()` is modelled by
`asciiLower`; the strings involved are ASCII.) -/
def find_pdf_url_on_page_scraper (urljoin : String → String → String)
    (page_url _link_text : String) (anchors : List Anchor) :
    Except String String :=
  let getlink := "Download the Criteria"
  let button_link := anchors.find? (fun an =>
    an.href.isSome &&
    match an.text with
    | none => false
    | some s => pyIn (asciiLower getlink) (asciiLower s))
  match button_link with
  | some an =>
    if hrefTruthy an then .ok (urljoin page_url (an.href.getD ""))
    else .error ("Could not find PDF download link on page: " ++ page_url)
  | none => .error ("Could not find PDF download link on page: " ++ page_url)

/-! ### `src/email_auto.py` : `diff_files` -/

/-- Behaviour of the SMTP transport (connect + `login` + `send_message`):
either the whole block succeeds or some step raises. -/
inductive SmtpBehavior where
  | ok
  | raises (e : String)
  deriving DecidableEq, Repr

/-- The `with smtplib.SMTP_SSL(...) as smtp: smtp.login(...);
smtp.send_message(msg)` block as a fallible step. -/
def sendStep : SmtpBehavior → Except String Unit
  | .ok => .ok ()
  | .raises e => .error e

/-- How a call to `diff_files` terminates. -/
inductive RunOutcome where
  /-- the `exit(1)` taken when an input file is missing -/
  | exited (code : ℕ)
  /-- the function returned normally; `sent` records whether the email
  was delivered -/
  | finished (sent : Bool)
  /-- an exception escaped to the caller -/
  | raised (e : String)
  deriving DecidableEq, Repr

/-- The observable result of one `diff_files` run. -/
structure DiffFilesRun where
  outcome : RunOutcome
  /-- whether an SMTP delivery was attempted -/
  sendAttempted : Bool
  /-- the body passed to `msg.set_content` when a delivery is attempted -/
  emailBody : String
  deriving DecidableEq, Repr

/-- `src/email_auto.py:diff_files(old_file_path, new_file_path)`.
`now` is `datetime.datetime.now().isoformat()`.  Note the guard on the
notification: the source tests `if diff_cs:` where `diff_cs` is the
*generator object* returned by `difflib.unified_diff`, and a generator
object is truthy regardless of whether it will yield anything, so the
branch is always taken; only the SMTP errors are caught
(`except Exception`), so no exception ever escapes. -/
def diff_files (fs : FS) (smtp : SmtpBehavior) (now : String)
    (old_file_path new_file_path : String) : DiffFilesRun :=
  if (fs old_file_path).isNone then ⟨.exited 1, false, ""⟩
  else if (fs new_file_path).isNone then ⟨.exited 1, false, ""⟩
  else
    let old_data_cs := pyReadlines ((fs old_file_path).getD "")
    let new_data_cs := pyReadlines ((fs new_file_path).getD "")
    let diff_cs := unifiedDiff old_data_cs new_data_cs
      "Old CS Criteria" "New CS Criteria" 3
    -- `if diff_cs:` — truthiness of the generator object, not of its content
    let generator_truthy := true
    if generator_truthy then
      let diff_text := String.join diff_cs
      let body := "The following changes were detected between the old and " ++
        "new CS data files:\n\n" ++ diff_text ++ now
      match sendStep smtp with
      | .ok _u => ⟨.finished true, true, body⟩
      | .error _e => ⟨.finished false, true, body⟩
    else ⟨.finished false, false, ""⟩

/-! ### `scripts/fetch_pdfs.py` : `fetch_pdf` and the fetch loop of `main` -/

/-- `fetch_pdf(url, name, pdf_dir, text_dir, extract_text, logger)`.
The HTTP download (`get_pdf_from_url`) and the text extraction
(`read_pdf_text`) are external effects passed in as outcomes; `pdf_path`
and `text_path` are the timestamped target paths.  The whole body is one
`try`: any exception is caught, logged, and turned into `False`. -/
def fetch_pdf (fs : FS) (download : Except String String)
    (extract : String → Except String String)
    (pdf_path text_path : String) (extract_text : Bool) : Bool × FS :=
  match download with
  | .error _e => (false, fs)
  | .ok pdf_bytes =>
    let fs1 := fsWrite fs pdf_path pdf_bytes
    if extract_text then
      match extract pdf_bytes with
      | .error _e => (false, fs1)
      | .ok text => (true, fsWrite fs1 text_path text)
    else (true, fs1)

/-- One requested PDF: its download outcome and target paths. -/
structure FetchItem where
  download : Except String String
  pdf_path : String
  text_path : String

/-- The `for pdf in pdfs:` loop of `main`, threading the success and
failure counters and the file system. -/
def fetchLoop (extract : String → Except String String)
    (extract_text : Bool) :
    List FetchItem → FS → ℕ → ℕ → (ℕ × ℕ × FS)
  | [], fs, s, f => (s, f, fs)
  | item :: rest, fs, s, f =>
    let r := fetch_pdf fs item.download extract item.pdf_path item.text_path
      extract_text
    if r.1 then fetchLoop extract extract_text rest r.2 (s + 1) f
    else fetchLoop extract extract_text rest r.2 s (f + 1)

/-- The value `main` returns after the loop:
`0 if fail_count == 0 else 1`. -/
def fetchMainReturn (extract : String → Except String String)
    (extract_text : Bool) (items : List FetchItem) (fs : FS) : ℕ :=
  let r := fetchLoop extract extract_text items fs 0 0
  if r.2.1 = 0 then 0 else 1

/-- Whether one `fetch_pdf` call succeeds (its `Bool` result, which does
not depend on the file system). -/
def fetchOk (extract : String → Except String String)
    (extract_text : Bool) (item : FetchItem) : Bool :=
  match item.download with
  | .error _ => false
  | .ok pdf_bytes =>
    if extract_text then
      match extract pdf_bytes with
      | .error _ => false
      | .ok _ => true
    else true

/-! ### Specification-side predicates -/

/-- `matchRun a b x y k`: the `k` elements of `a` starting at `x` agree with
the `k` elements of `b` starting at `y` (via `getD`, the indices used being
in range wherever this predicate is applied). -/
def matchRun (a b : List String) (x y k : ℕ) : Prop :=
  ∀ t, t < k → a.getD (x + t) "" = b.getD (y + t) ""

/-- Invariant of the best match maintained by `find_longest_match` over the
window `[alo, ahi) × [blo, bhi)`: either still the initial `(alo, blo, 0)`,
or a genuine in-window common run. -/
def bestInv (a b : List String) (alo ahi blo bhi : ℕ) (m : Best) : Prop :=
  (m.i = alo ∧ m.j = blo ∧ m.size = 0) ∨
  (1 ≤ m.size ∧ alo ≤ m.i ∧ m.i + m.size ≤ ahi ∧ blo ≤ m.j ∧
   m.j + m.size ≤ bhi ∧ matchRun a b m.i m.j m.size)

/-- Well-formed matching-block lists over the window `[i, I) × [j, J)`:
blocks are genuine common runs, ordered and non-overlapping in both
coordinates. -/
def okB (a b : List String) : ℕ → ℕ → ℕ → ℕ → List Best → Prop
  | i, j, I, J, [] => i ≤ I ∧ j ≤ J
  | i, j, I, J, m :: rest =>
    i ≤ m.i ∧ j ≤ m.j ∧ 1 ≤ m.size ∧ m.i + m.size ≤ I ∧ m.j + m.size ≤ J ∧
    matchRun a b m.i m.j m.size ∧ okB a b (m.i + m.size) (m.j + m.size) I J rest

/-- Well-formed opcode lists: starting at cursor `(i, j)` and ending exactly
at `(I, J)`, with adjacent ranges, genuine `equal` opcodes (within bounds),
and the degenerate side of `insert`/`delete` empty. -/
def opsCover (a b : List String) : ℕ → ℕ → ℕ → ℕ → List Opcode → Prop
  | i, j, I, J, [] => i = I ∧ j = J
  | i, j, I, J, c :: rest =>
    c.i1 = i ∧ c.j1 = j ∧ i ≤ c.i2 ∧ j ≤ c.j2 ∧
    (c.tag = .equal → c.i2 - c.i1 = c.j2 - c.j1 ∧
      matchRun a b c.i1 c.j1 (c.i2 - c.i1) ∧ c.i2 ≤ a.length ∧ c.j2 ≤ b.length) ∧
    (c.tag = .insert → c.i2 = c.i1) ∧
    (c.tag = .delete → c.j2 = c.j1) ∧
    opsCover a b c.i2 c.j2 I J rest

/-- The context and removed lines of a diff hunk, in order (the lines the
hunk shows from the old sequence). -/
def oldSideOf (a : List String) (g : List Opcode) : List String :=
  g.flatMap (fun c =>
    match c.tag with
    | .equal => sliceList a c.i1 c.i2
    | .replace => sliceList a c.i1 c.i2
    | .delete => sliceList a c.i1 c.i2
    | .insert => [])

/-- The context and added lines of a diff hunk, in order (the lines the hunk
shows for the new sequence; context lines are rendered from `a` in
`unified_diff`). -/
def newSideOf (a b : List String) (g : List Opcode) : List String :=
  g.flatMap (fun c =>
    match c.tag with
    | .equal => sliceList a c.i1 c.i2
    | .replace => sliceList b c.j1 c.j2
    | .delete => []
    | .insert => sliceList b c.j1 c.j2)

/-- All context and removed lines of the whole diff, in order. -/
def oldSideLines (a b : List String) (n : ℕ) : List String :=
  (get_grouped_opcodes a b n).flatMap (oldSideOf a)

/-- All context and added lines of the whole diff, in order. -/
def newSideLines (a b : List String) (n : ℕ) : List String :=
  (get_grouped_opcodes a b n).flatMap (newSideOf a b)

/-- Position `j` of `a` is "visible" to the matching loops when comparing
`a` with itself: its value survives the autojunk purge (so `j` occurs in
`b2j a (a !! j)`). -/
def visible (a : List String) (j : ℕ) : Bool :=
  decide (j ∈ b2j a (a.getD j ""))

/-- Length of the maximal visible run ending at index `i` when comparing
`a` with itself. -/
def diagRun (a : List String) : ℕ → ℕ
  | 0 => if visible a 0 then 1 else 0
  | i + 1 => if visible a (i + 1) then diagRun a i + 1 else 0

/-- Maximum of `diagRun` over indices `< i`. -/
def maxD (a : List String) : ℕ → ℕ
  | 0 => 0
  | i + 1 => max (maxD a i) (diagRun a i)

/-- `diagRun` at the previous index (`0` at the start). -/
def diagPrev (a : List String) : ℕ → ℕ
  | 0 => 0
  | r + 1 => diagRun a r

/-- Invariant of the `j2len` map entering the row with index `r` of the
`find_longest_match` main loop over the window starting at `(alo, blo)`:
every recorded run length is a genuine common run ending just before row
`r`, contained in the window. -/
def mapInv (a b : List String) (alo blo r : ℕ) (f : ℕ → ℕ) : Prop :=
  ∀ j, f j ≠ 0 → alo + f j ≤ r ∧ blo + f j ≤ j + 1 ∧
    matchRun a b (r - f j) (j + 1 - f j) (f j)

/-! ### Concrete fixtures for the counterexample and bug-witness theorems -/

/-- A file system holding identical old and new snapshot files. -/
def fsIdenticalSnapshots : FS :=
  fun p =>
    if p = "src/cs_criteria.txt" then some "X\nY\n"
    else if p = "src/new_cs_criteria.txt" then some "X\nY\n"
    else none

/-- A file system holding two one-line input files for `mindiff_text_files`. -/
def fsTwoFiles : FS :=
  fun p =>
    if p = "a.txt" then some "x"
    else if p = "b.txt" then some "y"
    else none

/-! ## Theorems -/

/-- **C1** (code bug evidence).  With old and new snapshot files that are
line-for-line identical (`"X\nY\n"` both), `diff_files` still attempts an
SMTP send even though the unified diff of the two line sequences is empty:
the guard `if diff_cs:` tests the truthiness of the generator object, which
is `True` regardless of content. -/
theorem C1_generator_always_truthy :
    (diff_files fsIdenticalSnapshots .ok "T0" "src/cs_criteria.txt"
        "src/new_cs_criteria.txt").sendAttempted = true ∧
    unifiedDiff (pyReadlines "X\nY\n") (pyReadlines "X\nY\n")
        "Old CS Criteria" "New CS Criteria" 3 = [] := by
  decide

/-- **C3**.  When the SMTP transport raises, `diff_files` catches the
exception and returns normally with the email unsent (and the send was
attempted); moreover no exception ever escapes `diff_files` for any
transport behaviour. -/
theorem C3_smtp_exception_caught (fs : FS) (now e old_p new_p : String)
    (h1 : (fs old_p).isSome = true) (h2 : (fs new_p).isSome = true) :
    (diff_files fs (.raises e) now old_p new_p).outcome =
      RunOutcome.finished false ∧
    (diff_files fs (.raises e) now old_p new_p).sendAttempted = true ∧
    (∀ smtp eX, (diff_files fs smtp now old_p new_p).outcome ≠
      RunOutcome.raised eX) := by
  obtain ⟨ca, hca⟩ := Option.isSome_iff_exists.1 h1
  obtain ⟨cb, hcb⟩ := Option.isSome_iff_exists.1 h2
  refine ⟨?_, ?_, ?_⟩
  · simp [diff_files, hca, hcb, sendStep]
  · simp [diff_files, hca, hcb, sendStep]
  · intro smtp eX
    cases smtp <;> simp [diff_files, hca, hcb, sendStep]

/-- Witness for **C3** at a concrete file system and authentication
failure. -/
theorem C3_smtp_exception_caught_witness :
    (diff_files fsIdenticalSnapshots (.raises "auth failed") "T0"
        "src/cs_criteria.txt" "src/new_cs_criteria.txt").outcome =
      RunOutcome.finished false ∧
    (diff_files fsIdenticalSnapshots (.raises "auth failed") "T0"
        "src/cs_criteria.txt" "src/new_cs_criteria.txt").sendAttempted = true ∧
    (∀ smtp eX, (diff_files fsIdenticalSnapshots smtp "T0"
        "src/cs_criteria.txt" "src/new_cs_criteria.txt").outcome ≠
      RunOutcome.raised eX) :=
  C3_smtp_exception_caught fsIdenticalSnapshots "T0" "auth failed"
    "src/cs_criteria.txt" "src/new_cs_criteria.txt" (by decide) (by decide)

/-- **C4**.  When the HTTP download step raises, `fetch_pdf` returns
`False` with the file system untouched: no PDF file and no text file is
written, and every previously existing file is unmodified. -/
theorem C4_fetch_failure_atomic (fs : FS) (e : String)
    (extract : String → Except String String) (pdf_path text_path : String)
    (extract_text : Bool) :
    fetch_pdf fs (.error e) extract pdf_path text_path extract_text =
      (false, fs) ∧
    ∀ p, (fetch_pdf fs (.error e) extract pdf_path text_path
      extract_text).2 p = fs p :=
  ⟨rfl, fun _ => rfl⟩

/-- **C5** (counterexample).  A page whose text extraction raises does make
the extraction as a whole fail: it does not contribute an empty string. -/
theorem C5_counterexample :
    read_pdf_text [Except.ok "A", Except.error "boom"] = .error "boom" ∧
    read_pdf_text [Except.ok "A", Except.error "boom"] ≠
      .ok (String.intercalate "\n" ["A", ""]) := by
  refine ⟨rfl, ?_⟩
  intro h
  rw [show read_pdf_text [Except.ok "A", Except.error "boom"] =
    .error "boom" from rfl] at h
  exact Except.noConfusion h

theorem pagesLoop_map_ok (texts : List String) :
    ∀ acc, pagesLoop (texts.map Except.ok) acc = .ok (acc.reverse ++ texts) := by
  induction texts with
  | nil => intro acc; simp [pagesLoop]
  | cons t ts ih =>
    intro acc
    simp [pagesLoop, ih (t :: acc)]

theorem pagesLoop_first_error (texts : List String) (e : String)
    (rest : List (Except String String)) :
    ∀ acc, pagesLoop (texts.map Except.ok ++ .error e :: rest) acc =
      .error e := by
  induction texts with
  | nil => intro acc; simp [pagesLoop]
  | cons t ts ih => intro acc; simp [pagesLoop, ih]

/-- **C5** (amended).  `read_pdf_text` joins the per-page texts with a
single newline when every page extraction returns; if some page extraction
raises, the first such exception propagates and the whole extraction
fails. -/
theorem C5_per_page_join :
    (∀ texts : List String,
      read_pdf_text (texts.map Except.ok) =
        .ok (String.intercalate "\n" texts)) ∧
    (∀ (texts : List String) (e : String)
      (rest : List (Except String String)),
      read_pdf_text (texts.map Except.ok ++ .error e :: rest) = .error e) := by
  constructor
  · intro texts
    simp [read_pdf_text, pagesLoop_map_ok, Except.map]
  · intro texts e rest
    simp [read_pdf_text, pagesLoop_first_error, Except.map]

/-- **C6** (counterexample).  The anchor-text match of
`abet_pdf_simple.find_pdf_url_on_page` is case-sensitive: an anchor reading
`"download the criteria"` is *not* selected for the selector
`"Download the Criteria"` (the claim predicts it is), and the
`abet_scraper` variant selects an anchor that does not contain the
`link_text` argument at all (it matches the hardcoded string instead). -/
theorem C6_counterexample :
    find_pdf_url_on_page (fun _p h => h) "https://page"
        "Download the Criteria"
        [⟨some "download the criteria", some "f.pdf", []⟩] =
      .error "Could not find PDF download link on page: https://page" ∧
    find_pdf_url_on_page_scraper (fun _p h => h) "https://page"
        "Other Link Text"
        [⟨some "Download the Criteria here", some "f.pdf", []⟩] =
      .ok "f.pdf" :=
  ⟨rfl, rfl⟩

/-- **C6** (amended).  `find_pdf_url_on_page` selects the first anchor
whose string content contains `link_text` as a *case-sensitive* substring;
when that anchor carries a non-empty `href`, the function returns that
`href` resolved against the page URL by `urljoin`. -/
theorem C6_first_case_sensitive_match (urljoin : String → String → String)
    (page_url link_text : String) (anchors : List Anchor) (an : Anchor)
    (hfind : anchors.find? (fun x =>
        match x.text with
        | none => false
        | some t => pyIn link_text t) = some an)
    (hhref : hrefTruthy an = true) :
    find_pdf_url_on_page urljoin page_url link_text anchors =
      .ok (urljoin page_url (an.href.getD "")) := by
  unfold find_pdf_url_on_page
  rw [hfind]
  simp [hhref]

/-- Witness for the amended **C6** at a concrete page. -/
theorem C6_first_case_sensitive_match_witness :
    find_pdf_url_on_page (fun _p h => h) "https://page"
        "Download the Criteria"
        [⟨some "Download the Criteria here", some "f.pdf", []⟩] =
      .ok "f.pdf" :=
  C6_first_case_sensitive_match (fun _p h => h) "https://page"
    "Download the Criteria"
    [⟨some "Download the Criteria here", some "f.pdf", []⟩]
    ⟨some "Download the Criteria here", some "f.pdf", []⟩
    (by decide) (by decide)

/-- **C7** (counterexample).  The round-trip claim fails for the unified
diff that `mindiff_text_files` produces: with the default three lines of
context, lines outside the hunks are omitted, so the context and removed
lines do not reconstruct the old sequence (nor context and added the new
one). -/
theorem C7_counterexample :
    oldSideLines ["a", "b", "c", "d", "e", "f", "g", "h"]
        ["a", "b", "c", "d", "e", "f", "g", "X"] 3 = ["e", "f", "g", "h"] ∧
    oldSideLines ["a", "b", "c", "d", "e", "f", "g", "h"]
        ["a", "b", "c", "d", "e", "f", "g", "X"] 3 ≠
      ["a", "b", "c", "d", "e", "f", "g", "h"] ∧
    newSideLines ["a", "b", "c", "d", "e", "f", "g", "h"]
        ["a", "b", "c", "d", "e", "f", "g", "X"] 3 = ["e", "f", "g", "X"] ∧
    newSideLines ["a", "b", "c", "d", "e", "f", "g", "h"]
        ["a", "b", "c", "d", "e", "f", "g", "X"] 3 ≠
      ["a", "b", "c", "d", "e", "f", "g", "X"] := by
  decide

/-- **C8**.  The diff computation is deterministic: it is a pure function
of the two line sequences, the file labels and the context count, so two
runs on identical inputs yield identical output. -/
theorem C8_deterministic (a1 a2 b1 b2 : List String) (f1 f2 t1 t2 : String)
    (n1 n2 : ℕ) (ha : a1 = a2) (hb : b1 = b2) (hf : f1 = f2) (ht : t1 = t2)
    (hn : n1 = n2) :
    unifiedDiff a1 b1 f1 t1 n1 = unifiedDiff a2 b2 f2 t2 n2 := by
  subst ha hb hf ht hn
  rfl

/-- Witness for **C8** at a concrete pair of runs. -/
theorem C8_deterministic_witness :
    unifiedDiff ["A"] ["B"] "old" "new" 3 =
      unifiedDiff ["A"] ["B"] "old" "new" 3 :=
  C8_deterministic ["A"] ["A"] ["B"] ["B"] "old" "old" "new" "new" 3 3
    rfl rfl rfl rfl rfl

theorem fetch_pdf_fst_eq (fs : FS) (item : FetchItem)
    (extract : String → Except String String) (extract_text : Bool) :
    (fetch_pdf fs item.download extract item.pdf_path item.text_path
      extract_text).1 = fetchOk extract extract_text item := by
  rcases item with ⟨dl, pp, tp⟩
  cases dl with
  | error e => rfl
  | ok bytes =>
    cases extract_text with
    | false => rfl
    | true =>
      simp only [fetch_pdf, fetchOk]
      cases extract bytes <;> rfl

theorem fetchLoop_counts (extract : String → Except String String)
    (extract_text : Bool) :
    ∀ (items : List FetchItem) (fs : FS) (s f : ℕ),
      (fetchLoop extract extract_text items fs s f).1 =
        s + items.countP (fun it => fetchOk extract extract_text it) ∧
      (fetchLoop extract extract_text items fs s f).2.1 =
        f + items.countP (fun it => !fetchOk extract extract_text it) := by
  intro items
  induction items with
  | nil => intro fs s f; simp [fetchLoop]
  | cons item rest ih =>
    intro fs s f
    have hstep : fetchLoop extract extract_text (item :: rest) fs s f =
        if fetchOk extract extract_text item then
          fetchLoop extract extract_text rest
            (fetch_pdf fs item.download extract item.pdf_path item.text_path
              extract_text).2 (s + 1) f
        else
          fetchLoop extract extract_text rest
            (fetch_pdf fs item.download extract item.pdf_path item.text_path
              extract_text).2 s (f + 1) := by
      simp only [fetchLoop, fetch_pdf_fst_eq]
    by_cases hok : fetchOk extract extract_text item = true
    · rw [hstep, if_pos hok]
      obtain ⟨h1, h2⟩ := ih (fetch_pdf fs item.download extract item.pdf_path
        item.text_path extract_text).2 (s + 1) f
      constructor
      · rw [h1, List.countP_cons]
        simp only [hok, if_true]
        omega
      · rw [h2, List.countP_cons]
        simp [hok]
    · rw [hstep, if_neg hok]
      obtain ⟨h1, h2⟩ := ih (fetch_pdf fs item.download extract item.pdf_path
        item.text_path extract_text).2 s (f + 1)
      constructor
      · rw [h1, List.countP_cons]
        simp [hok]
      · rw [h2, List.countP_cons]
        simp only [Bool.not_eq_true] at hok
        simp [hok]
        omega

/-- **C9**.  The fetch run returns `0` iff every requested fetch (with its
extraction and save, when requested) succeeds; failures are counted
without stopping the loop, so the success and failure counters always sum
to the number of requested PDFs. -/
theorem C9_exit_code (extract : String → Except String String)
    (extract_text : Bool) (items : List FetchItem) (fs : FS) :
    (fetchMainReturn extract extract_text items fs = 0 ↔
      ∀ item ∈ items, fetchOk extract extract_text item = true) ∧
    (fetchLoop extract extract_text items fs 0 0).1 +
      (fetchLoop extract extract_text items fs 0 0).2.1 = items.length := by
  obtain ⟨h1, h2⟩ := fetchLoop_counts extract extract_text items fs 0 0
  have hmain : fetchMainReturn extract extract_text items fs =
      if (fetchLoop extract extract_text items fs 0 0).2.1 = 0 then 0 else 1 :=
    rfl
  constructor
  · rw [hmain, h2]
    simp only [Nat.zero_add]
    by_cases hc :
        items.countP (fun it => !fetchOk extract extract_text it) = 0
    · rw [if_pos hc]
      simp only [true_iff]
      intro item hmem
      have := List.countP_eq_zero.mp hc item hmem
      simpa using this
    · rw [if_neg hc]
      simp only [Nat.one_ne_zero, false_iff]
      intro hall
      exact hc (List.countP_eq_zero.mpr (fun item hmem => by
        simp [hall item hmem]))
  · rw [h1, h2]
    simp only [Nat.zero_add]
    have hlen := List.length_eq_countP_add_countP
      (fun it => fetchOk extract extract_text it) items
    have hsame : items.countP
          (fun a => decide (¬fetchOk extract extract_text a = true)) =
        items.countP (fun it => !fetchOk extract extract_text it) := by
      apply List.countP_congr
      intro a _
      simp
    omega

/-- **C10** (counterexample).  When the caller supplies `out_path` equal to
an input path, `mindiff_text_files` overwrites that input file: the old
content `"x"` of `a.txt` is replaced by the diff text, so the inputs are
not always left unchanged. -/
theorem C10_counterexample :
    (mindiff_text_files fsTwoFiles "a.txt" "b.txt" (some "a.txt") 3).toOption.map
        (fun r => r.2 "a.txt") =
      some (some "--- a.txt\n+++ b.txt\n@@ -1 +1 @@\n-x\n+y") ∧
    fsTwoFiles "a.txt" = some "x" ∧
    ("--- a.txt\n+++ b.txt\n@@ -1 +1 @@\n-x\n+y" : String) ≠ "x" := by
  refine ⟨rfl, rfl, ?_⟩
  intro h
  exact absurd (congrArg String.length h) (by decide)

/-- **C10** (amended).  For existing input files, `mindiff_text_files`
writes exactly one file — at `out_path` when supplied, otherwise at the
default path `dirname(path_a)/"{base_a}+{base_b}_diff.txt"` — returns that
path, leaves every other file unchanged, and in particular leaves both
inputs unchanged whenever the output path differs from them. -/
theorem C10_single_write (fs : FS) (path_a path_b : String)
    (out_path : Option String) (context : ℕ) (ca cb : String)
    (ha : fs path_a = some ca) (hb : fs path_b = some cb) :
    ∃ outp fsN,
      mindiff_text_files fs path_a path_b out_path context =
        .ok (outp, fsN) ∧
      outp = (match out_path with
        | some o => o
        | none => defaultOutPath path_a path_b) ∧
      fsN outp = some (String.intercalate "\n"
        (unifiedDiff (pySplitlines ca) (pySplitlines cb)
          path_a path_b context)) ∧
      (∀ q, q ≠ outp → fsN q = fs q) ∧
      (outp ≠ path_a → fsN path_a = some ca) ∧
      (outp ≠ path_b → fsN path_b = some cb) := by
  cases out_path with
  | some o =>
    refine ⟨o, fsWrite fs o
      (String.intercalate "\n" (unifiedDiff (pySplitlines ca)
        (pySplitlines cb) path_a path_b context)), ?_, rfl, ?_, ?_, ?_, ?_⟩
    · simp only [mindiff_text_files, ha, hb]
    · simp [fsWrite]
    · intro q hq
      simp [fsWrite, hq]
    · intro hne
      have hq : ¬ path_a = o := fun h => hne (Eq.symm h)
      simp only [fsWrite, if_neg hq]
      exact ha
    · intro hne
      have hq : ¬ path_b = o := fun h => hne (Eq.symm h)
      simp only [fsWrite, if_neg hq]
      exact hb
  | none =>
    refine ⟨defaultOutPath path_a path_b,
      fsWrite fs (defaultOutPath path_a path_b)
      (String.intercalate "\n" (unifiedDiff (pySplitlines ca)
        (pySplitlines cb) path_a path_b context)), ?_, rfl, ?_, ?_, ?_, ?_⟩
    · simp only [mindiff_text_files, ha, hb]
    · simp [fsWrite]
    · intro q hq
      simp [fsWrite, hq]
    · intro hne
      have hq : ¬ path_a = defaultOutPath path_a path_b :=
        fun h => hne (Eq.symm h)
      simp only [fsWrite, if_neg hq]
      exact ha
    · intro hne
      have hq : ¬ path_b = defaultOutPath path_a path_b :=
        fun h => hne (Eq.symm h)
      simp only [fsWrite, if_neg hq]
      exact hb

/-- Witness for the amended **C10** at a concrete file system, with the
default output path. -/
theorem C10_single_write_witness :
    ∃ outp fsN,
      mindiff_text_files fsTwoFiles "a.txt" "b.txt" none 3 =
        .ok (outp, fsN) ∧
      outp = (match (none : Option String) with
        | some o => o
        | none => defaultOutPath "a.txt" "b.txt") ∧
      fsN outp = some (String.intercalate "\n"
        (unifiedDiff (pySplitlines "x") (pySplitlines "y")
          "a.txt" "b.txt" 3)) ∧
      (∀ q, q ≠ outp → fsN q = fsTwoFiles q) ∧
      (outp ≠ "a.txt" → fsN "a.txt" = some "x") ∧
      (outp ≠ "b.txt" → fsN "b.txt" = some "y") :=
  C10_single_write fsTwoFiles "a.txt" "b.txt" none 3 "x" "y" rfl rfl

/-! ## Lemmas about common runs -/

theorem matchRun_zero (a b : List String) (x y : ℕ) : matchRun a b x y 0 :=
  fun t ht => absurd ht (Nat.not_lt_zero t)

theorem matchRun_snoc {a b : List String} {x y k : ℕ}
    (h : matchRun a b x y k) (hk : a.getD (x + k) "" = b.getD (y + k) "") :
    matchRun a b x y (k + 1) := by
  intro t ht
  rcases Nat.lt_succ_iff_lt_or_eq.mp ht with h1 | h1
  · exact h t h1
  · subst h1; exact hk

theorem matchRun_cons {a b : List String} {x y k : ℕ}
    (hk : a.getD x "" = b.getD y "")
    (h : matchRun a b (x + 1) (y + 1) k) :
    matchRun a b x y (k + 1) := by
  intro t ht
  cases t with
  | zero => simpa using hk
  | succ t0 =>
    have h1 := h t0 (by omega)
    have e1 : x + (t0 + 1) = x + 1 + t0 := by omega
    have e2 : y + (t0 + 1) = y + 1 + t0 := by omega
    rw [e1, e2]; exact h1

theorem matchRun_append {a b : List String} {x y k1 k2 : ℕ}
    (h1 : matchRun a b x y k1) (h2 : matchRun a b (x + k1) (y + k1) k2) :
    matchRun a b x y (k1 + k2) := by
  intro t ht
  by_cases hc : t < k1
  · exact h1 t hc
  · have e1 : x + t = x + k1 + (t - k1) := by omega
    have e2 : y + t = y + k1 + (t - k1) := by omega
    rw [e1, e2]
    exact h2 (t - k1) (by omega)

theorem matchRun_mono {a b : List String} {x y k kp : ℕ}
    (h : matchRun a b x y k) (hk : kp ≤ k) : matchRun a b x y kp :=
  fun t ht => h t (lt_of_lt_of_le ht hk)

theorem matchRun_drop {a b : List String} {x y k d : ℕ}
    (h : matchRun a b x y k) (hd : d ≤ k) :
    matchRun a b (x + d) (y + d) (k - d) := by
  intro t ht
  have e1 : x + d + t = x + (d + t) := by omega
  have e2 : y + d + t = y + (d + t) := by omega
  rw [e1, e2]
  exact h (d + t) (by omega)

/-! ## Structure of the `find_longest_match` inner loop -/

theorem flmRow_eq (i blo bhi : ℕ) (f : ℕ → ℕ) :
    ∀ (js : List ℕ) (nw : ℕ → ℕ) (best : Best),
      flmRow i blo bhi f js nw best =
        (((js.filter (fun j => decide (blo ≤ j))).takeWhile
            (fun j => decide (j < bhi))).foldl
          (fun g j => fun jq => if jq = j then candK f j else g jq) nw,
         ((js.filter (fun j => decide (blo ≤ j))).takeWhile
            (fun j => decide (j < bhi))).foldl (bestStep i f) best) := by
  intro js
  induction js with
  | nil => intro nw best; simp [flmRow]
  | cons j js ih =>
    intro nw best
    by_cases h1 : j < blo
    · have hd : decide (blo ≤ j) = false := by simp; omega
      simp only [flmRow, if_pos h1, List.filter_cons, hd, if_false]
      exact ih nw best
    · by_cases h2 : bhi ≤ j
      · have hd : decide (blo ≤ j) = true := by simp; omega
        have hd2 : decide (j < bhi) = false := by simp; omega
        simp only [flmRow, if_neg h1, if_pos h2, List.filter_cons, hd,
          if_true, List.takeWhile_cons, hd2, if_false, List.foldl_nil]
        simp
      · have hd : decide (blo ≤ j) = true := by simp; omega
        have hd2 : decide (j < bhi) = true := by simp; omega
        simp only [flmRow, if_neg h1, if_neg h2, List.filter_cons, hd,
          if_true, List.takeWhile_cons, hd2, List.foldl_cons]
        exact ih _ _

theorem foldl_upd_apply (f : ℕ → ℕ) :
    ∀ (l : List ℕ) (g : ℕ → ℕ) (x : ℕ),
      (l.foldl (fun g0 j => fun jq => if jq = j then candK f j else g0 jq) g) x =
        if x ∈ l then candK f x else g x := by
  intro l
  induction l with
  | nil => intro g x; simp
  | cons j l ih =>
    intro g x
    simp only [List.foldl_cons]
    rw [ih]
    by_cases hx : x ∈ l
    · simp [hx]
    · by_cases hxj : x = j
      · subst hxj; simp [hx]
      · simp [hx, hxj]

theorem mem_takeWhile_pred {α : Type} (p : α → Bool) :
    ∀ (l : List α) (x : α), x ∈ l.takeWhile p → p x = true ∧ x ∈ l := by
  intro l
  induction l with
  | nil => intro x hx; simp [List.takeWhile] at hx
  | cons a l ih =>
    intro x hx
    rw [List.takeWhile_cons] at hx
    by_cases hp : p a = true
    · rw [if_pos hp] at hx
      rcases List.mem_cons.mp hx with h | h
      · subst h; exact ⟨hp, List.mem_cons_self x l⟩
      · obtain ⟨hq1, hq2⟩ := ih x h
        exact ⟨hq1, List.mem_cons_of_mem a hq2⟩
    · rw [if_neg hp] at hx
      simp at hx

theorem takeWhile_eq_self_of_all {α : Type} (p : α → Bool) :
    ∀ l : List α, (∀ x ∈ l, p x = true) → l.takeWhile p = l := by
  intro l
  induction l with
  | nil => intro _; rfl
  | cons a l ih =>
    intro h
    rw [List.takeWhile_cons, if_pos (h a (List.mem_cons_self a l)),
      ih (fun x hx => h x (List.mem_cons_of_mem a hx))]

theorem b2j_mem {b : List String} {v : String} {j : ℕ} (h : j ∈ b2j b v) :
    b.getD j "" = v ∧ j < b.length := by
  unfold b2j at h
  by_cases hp : isPopular b v = true
  · rw [if_pos hp] at h; simp at h
  · rw [if_neg hp] at h
    obtain ⟨h1, h2⟩ := List.mem_filter.mp h
    exact ⟨by simpa using h2, List.mem_range.mp h1⟩

theorem b2j_sorted (b : List String) (v : String) :
    List.Pairwise (· < ·) (b2j b v) := by
  unfold b2j
  by_cases hp : isPopular b v = true
  · simp [hp]
  · rw [if_neg hp]
    exact List.Pairwise.filter _ (List.pairwise_lt_range b.length)

theorem matchRun_one {a b : List String} {x y : ℕ}
    (h : a.getD x "" = b.getD y "") : matchRun a b x y 1 := by
  intro t ht
  have ht0 : t = 0 := by omega
  subst ht0
  simpa using h

theorem bestInv_mk {a b : List String} {alo ahi blo bhi x y k : ℕ}
    (hk : 1 ≤ k) (h1 : alo ≤ x) (h2 : x + k ≤ ahi) (h3 : blo ≤ y)
    (h4 : y + k ≤ bhi) (h5 : matchRun a b x y k) :
    bestInv a b alo ahi blo bhi ⟨x, y, k⟩ :=
  Or.inr ⟨hk, h1, h2, h3, h4, h5⟩

theorem candK_spec {a b : List String} {alo blo r : ℕ} {f : ℕ → ℕ}
    (hf : mapInv a b alo blo r f) (halo : alo ≤ r) {j : ℕ} (hblo : blo ≤ j)
    (hv : b.getD j "" = a.getD r "") :
    alo + candK f j ≤ r + 1 ∧ blo + candK f j ≤ j + 1 ∧
      matchRun a b (r + 1 - candK f j) (j + 1 - candK f j) (candK f j) := by
  cases j with
  | zero =>
    have hck : candK f 0 = 1 := rfl
    rw [hck]
    refine ⟨by omega, by omega, ?_⟩
    have e1 : r + 1 - 1 = r := by omega
    have e2 : 0 + 1 - 1 = 0 := by omega
    rw [e1, e2]
    exact matchRun_one hv.symm
  | succ j0 =>
    have hck : candK f (j0 + 1) = f j0 + 1 := by
      unfold candK
      simp
    rw [hck]
    by_cases h0 : f j0 = 0
    · rw [h0]
      refine ⟨by omega, by omega, ?_⟩
      have e1 : r + 1 - (0 + 1) = r := by omega
      have e2 : j0 + 1 + 1 - (0 + 1) = j0 + 1 := by omega
      rw [e1, e2]
      exact matchRun_one hv.symm
    · obtain ⟨h1, h2, h3⟩ := hf j0 h0
      refine ⟨by omega, by omega, ?_⟩
      have e1 : r + 1 - (f j0 + 1) = r - f j0 := by omega
      have e2 : j0 + 1 + 1 - (f j0 + 1) = j0 + 1 - f j0 := by omega
      rw [e1, e2]
      have e3 : j0 + 1 - f j0 = j0 + 1 - f j0 := rfl
      have hsnoc := matchRun_snoc h3 (x := r - f j0) (y := j0 + 1 - f j0) ?_
      · exact hsnoc
      · have e4 : r - f j0 + f j0 = r := by omega
        have e5 : j0 + 1 - f j0 + f j0 = j0 + 1 := by omega
        rw [e4, e5]
        exact hv.symm

theorem foldl_bestStep_inv {a b : List String} {alo ahi blo bhi r : ℕ}
    {f : ℕ → ℕ} (hr1 : alo ≤ r) (hr2 : r < ahi)
    (hf : mapInv a b alo blo r f) :
    ∀ (P : List ℕ) (best : Best),
      (∀ j ∈ P, blo ≤ j ∧ j < bhi ∧ b.getD j "" = a.getD r "") →
      bestInv a b alo ahi blo bhi best →
      bestInv a b alo ahi blo bhi (P.foldl (bestStep r f) best) := by
  intro P
  induction P with
  | nil => intro best _ hb; exact hb
  | cons j P ih =>
    intro best hmem hb
    simp only [List.foldl_cons]
    apply ih _ (fun x hx => hmem x (List.mem_cons_of_mem j hx))
    obtain ⟨hj1, hj2, hj3⟩ := hmem j (List.mem_cons_self j P)
    unfold bestStep
    by_cases hlt : best.size < candK f j
    · rw [if_pos hlt]
      obtain ⟨h1, h2, h3⟩ := candK_spec hf hr1 hj1 hj3
      have hk : 1 ≤ candK f j := Nat.succ_le_succ (Nat.zero_le _)
      exact bestInv_mk hk (by omega) (by omega) (by omega) (by omega) h3
    · rw [if_neg hlt]
      exact hb

theorem flmRow_spec {a b : List String} {alo ahi blo bhi r : ℕ} {f : ℕ → ℕ}
    (halo : alo ≤ r) (hahi : r < ahi) (hf : mapInv a b alo blo r f)
    (best : Best) (hb : bestInv a b alo ahi blo bhi best) :
    mapInv a b alo blo (r + 1)
      (flmRow r blo bhi f (b2j b (a.getD r "")) (fun _ => 0) best).1 ∧
    bestInv a b alo ahi blo bhi
      (flmRow r blo bhi f (b2j b (a.getD r "")) (fun _ => 0) best).2 := by
  rw [flmRow_eq]
  dsimp only
  have hPmem : ∀ j ∈ ((b2j b (a.getD r "")).filter
        (fun j => decide (blo ≤ j))).takeWhile (fun j => decide (j < bhi)),
      blo ≤ j ∧ j < bhi ∧ b.getD j "" = a.getD r "" := by
    intro j hj
    obtain ⟨hpred, hmem⟩ := mem_takeWhile_pred _ _ j hj
    obtain ⟨hmem2, hpred2⟩ := List.mem_filter.mp hmem
    exact ⟨by simpa using hpred2, by simpa using hpred, (b2j_mem hmem2).1⟩
  constructor
  · intro j hj
    rw [foldl_upd_apply] at hj ⊢
    by_cases hjP : j ∈ ((b2j b (a.getD r "")).filter
        (fun j => decide (blo ≤ j))).takeWhile (fun j => decide (j < bhi))
    · rw [if_pos hjP]
      obtain ⟨hj1, hj2, hj3⟩ := hPmem j hjP
      exact candK_spec hf halo hj1 hj3
    · rw [if_neg hjP] at hj
      exact absurd rfl hj
  · exact foldl_bestStep_inv halo hahi hf _ best hPmem hb

theorem flmRows_inv {a b : List String} {alo ahi blo bhi : ℕ} :
    ∀ (n r : ℕ) (f : ℕ → ℕ) (best : Best),
      alo ≤ r → r + n ≤ ahi →
      mapInv a b alo blo r f → bestInv a b alo ahi blo bhi best →
      bestInv a b alo ahi blo bhi
        (flmRows a b blo bhi (List.range' r n) (f, best)).2 := by
  intro n
  induction n with
  | zero =>
    intro r f best _ _ _ hb
    simpa [flmRows] using hb
  | succ n ih =>
    intro r f best h1 h2 hf hb
    rw [List.range'_succ]
    simp only [flmRows]
    obtain ⟨hm, hbest⟩ :=
      @flmRow_spec a b alo ahi blo bhi r f h1 (by omega) hf best hb
    exact ih (r + 1)
      (flmRow r blo bhi f (b2j b (a.getD r "")) (fun _ => 0) best).1
      (flmRow r blo bhi f (b2j b (a.getD r "")) (fun _ => 0) best).2
      (by omega) (by omega) hm hbest

theorem extendLower_inv {a b : List String} {alo ahi blo bhi : ℕ} :
    ∀ (fuel : ℕ) (best : Best),
      bestInv a b alo ahi blo bhi best →
      bestInv a b alo ahi blo bhi (extendLower a b alo blo fuel best) := by
  intro fuel
  induction fuel with
  | zero => intro best hb; exact hb
  | succ fuel ih =>
    rintro ⟨bi, bj, bs⟩ hb
    simp only [extendLower]
    by_cases hg : alo < bi ∧ blo < bj ∧
        a.getD (bi - 1) "" = b.getD (bj - 1) ""
    · rw [if_pos hg]
      obtain ⟨hg1, hg2, hg3⟩ := hg
      apply ih
      rcases hb with ⟨h1, h2, h3⟩ | ⟨h1, h2, h3, h4, h5, h6⟩
      · have e1 : bi = alo := h1
        exact absurd hg1 (by omega)
      · have k1 : 1 ≤ bs := h1
        have k2 : alo ≤ bi := h2
        have k3 : bi + bs ≤ ahi := h3
        have k4 : blo ≤ bj := h4
        have k5 : bj + bs ≤ bhi := h5
        have k6 : matchRun a b bi bj bs := h6
        refine bestInv_mk (by omega) (by omega) (by omega) (by omega)
          (by omega) ?_
        apply matchRun_cons hg3
        have e1 : bi - 1 + 1 = bi := by omega
        have e2 : bj - 1 + 1 = bj := by omega
        rw [e1, e2]
        exact k6
    · rw [if_neg hg]
      exact hb

theorem extendUpper_inv {a b : List String} {alo ahi blo bhi : ℕ} :
    ∀ (fuel : ℕ) (best : Best),
      bestInv a b alo ahi blo bhi best →
      bestInv a b alo ahi blo bhi (extendUpper a b ahi bhi fuel best) := by
  intro fuel
  induction fuel with
  | zero => intro best hb; exact hb
  | succ fuel ih =>
    rintro ⟨bi, bj, bs⟩ hb
    simp only [extendUpper]
    by_cases hg : bi + bs < ahi ∧ bj + bs < bhi ∧
        a.getD (bi + bs) "" = b.getD (bj + bs) ""
    · rw [if_pos hg]
      obtain ⟨hg1, hg2, hg3⟩ := hg
      apply ih
      rcases hb with ⟨h1, h2, h3⟩ | ⟨h1, h2, h3, h4, h5, h6⟩
      · have e1 : bi = alo := h1
        have e2 : bj = blo := h2
        have e3 : bs = 0 := h3
        have hg1n : bi + bs < ahi := hg1
        have hg2n : bj + bs < bhi := hg2
        subst e3
        refine bestInv_mk (by omega) (by omega) (by omega) (by omega)
          (by omega) ?_
        have hg3n : a.getD bi "" = b.getD bj "" := by simpa using hg3
        exact matchRun_one hg3n
      · have k1 : 1 ≤ bs := h1
        have k2 : alo ≤ bi := h2
        have k3 : bi + bs ≤ ahi := h3
        have k4 : blo ≤ bj := h4
        have k5 : bj + bs ≤ bhi := h5
        have k6 : matchRun a b bi bj bs := h6
        have hg1n : bi + bs < ahi := hg1
        have hg2n : bj + bs < bhi := hg2
        refine bestInv_mk (by omega) (by omega) (by omega) (by omega)
          (by omega) ?_
        exact matchRun_snoc k6 hg3
    · rw [if_neg hg]
      exact hb

theorem flm_bestInv (a b : List String) (alo ahi blo bhi : ℕ) :
    bestInv a b alo ahi blo bhi (find_longest_match a b alo ahi blo bhi) := by
  unfold find_longest_match
  apply extendUpper_inv
  apply extendLower_inv
  by_cases h : alo ≤ ahi
  · exact flmRows_inv (ahi - alo) alo (fun _ => 0) ⟨alo, blo, 0⟩
      (le_refl alo) (by omega) (fun j hj => absurd rfl hj)
      (Or.inl ⟨rfl, rfl, rfl⟩)
  · have hz : ahi - alo = 0 := by omega
    rw [hz]
    simp only [List.range', flmRows]
    exact Or.inl ⟨rfl, rfl, rfl⟩

/-! ## Well-formedness of the matching blocks -/

theorem okB_nil_intro {a b : List String} {i j I J : ℕ} (h1 : i ≤ I)
    (h2 : j ≤ J) : okB a b i j I J [] :=
  ⟨h1, h2⟩

theorem okB_nil_elim {a b : List String} {i j I J : ℕ}
    (h : okB a b i j I J []) : i ≤ I ∧ j ≤ J :=
  h

theorem okB_cons_intro {a b : List String} {i j I J : ℕ} {m : Best}
    {rest : List Best} (h1 : i ≤ m.i) (h2 : j ≤ m.j) (h3 : 1 ≤ m.size)
    (h4 : m.i + m.size ≤ I) (h5 : m.j + m.size ≤ J)
    (h6 : matchRun a b m.i m.j m.size)
    (h7 : okB a b (m.i + m.size) (m.j + m.size) I J rest) :
    okB a b i j I J (m :: rest) :=
  ⟨h1, h2, h3, h4, h5, h6, h7⟩

theorem okB_cons_elim {a b : List String} {i j I J : ℕ} {m : Best}
    {rest : List Best} (h : okB a b i j I J (m :: rest)) :
    i ≤ m.i ∧ j ≤ m.j ∧ 1 ≤ m.size ∧ m.i + m.size ≤ I ∧ m.j + m.size ≤ J ∧
    matchRun a b m.i m.j m.size ∧
    okB a b (m.i + m.size) (m.j + m.size) I J rest :=
  h

theorem okB_le {a b : List String} :
    ∀ {bs : List Best} {i j I J : ℕ}, okB a b i j I J bs → i ≤ I ∧ j ≤ J := by
  intro bs
  induction bs with
  | nil => intro i j I J h; exact okB_nil_elim h
  | cons m rest ih =>
    intro i j I J h
    obtain ⟨h1, h2, _h3, h4, h5, _h6, h7⟩ := okB_cons_elim h
    obtain ⟨g1, g2⟩ := ih h7
    exact ⟨by omega, by omega⟩

theorem okB_mono_lower {a b : List String} {bs : List Best} {i j I J : ℕ}
    (h : okB a b i j I J bs) {i0 j0 : ℕ} (hi : i0 ≤ i) (hj : j0 ≤ j) :
    okB a b i0 j0 I J bs := by
  cases bs with
  | nil =>
    obtain ⟨h1, h2⟩ := okB_nil_elim h
    exact okB_nil_intro (by omega) (by omega)
  | cons m rest =>
    obtain ⟨h1, h2, h3, h4, h5, h6, h7⟩ := okB_cons_elim h
    exact okB_cons_intro (by omega) (by omega) h3 h4 h5 h6 h7

theorem okB_append {a b : List String} :
    ∀ {l1 l2 : List Best} {i j M N I J : ℕ},
      okB a b i j M N l1 → okB a b M N I J l2 →
      okB a b i j I J (l1 ++ l2) := by
  intro l1
  induction l1 with
  | nil =>
    intro l2 i j M N I J h1 h2
    obtain ⟨g1, g2⟩ := okB_nil_elim h1
    simpa using okB_mono_lower h2 g1 g2
  | cons m rest ih =>
    intro l2 i j M N I J h1 h2
    obtain ⟨g1, g2, g3, g4, g5, g6, g7⟩ := okB_cons_elim h1
    obtain ⟨e1, e2⟩ := okB_le h2
    exact okB_cons_intro g1 g2 g3 (by omega) (by omega) g6 (ih g7 h2)

theorem matchingBlocksAux_okB {a b : List String} :
    ∀ (fuel alo ahi blo bhi : ℕ), alo ≤ ahi → blo ≤ bhi →
      (ahi - alo) + (bhi - blo) < fuel →
      okB a b alo blo ahi bhi (matchingBlocksAux a b fuel alo ahi blo bhi) := by
  intro fuel
  induction fuel with
  | zero => intro alo ahi blo bhi _ _ h3; omega
  | succ fuel ih =>
    intro alo ahi blo bhi h1 h2 h3
    simp only [matchingBlocksAux]
    by_cases hz : (find_longest_match a b alo ahi blo bhi).size = 0
    · rw [if_pos hz]
      exact okB_nil_intro h1 h2
    · rw [if_neg hz]
      rcases flm_bestInv a b alo ahi blo bhi with ⟨e1, e2, e3⟩ |
        ⟨k1, k2, k3, k4, k5, k6⟩
      · exact absurd e3 hz
      · have hleft : okB a b alo blo
            (find_longest_match a b alo ahi blo bhi).i
            (find_longest_match a b alo ahi blo bhi).j
            (if alo < (find_longest_match a b alo ahi blo bhi).i ∧
                blo < (find_longest_match a b alo ahi blo bhi).j then
              matchingBlocksAux a b fuel alo
                (find_longest_match a b alo ahi blo bhi).i blo
                (find_longest_match a b alo ahi blo bhi).j
            else []) := by
          by_cases hg : alo < (find_longest_match a b alo ahi blo bhi).i ∧
              blo < (find_longest_match a b alo ahi blo bhi).j
          · rw [if_pos hg]
            obtain ⟨hg1, hg2⟩ := hg
            exact ih _ _ _ _ (by omega) (by omega) (by omega)
          · rw [if_neg hg]
            exact okB_nil_intro k2 k4
        have hright : okB a b
            ((find_longest_match a b alo ahi blo bhi).i +
              (find_longest_match a b alo ahi blo bhi).size)
            ((find_longest_match a b alo ahi blo bhi).j +
              (find_longest_match a b alo ahi blo bhi).size) ahi bhi
            (if (find_longest_match a b alo ahi blo bhi).i +
                  (find_longest_match a b alo ahi blo bhi).size < ahi ∧
                (find_longest_match a b alo ahi blo bhi).j +
                  (find_longest_match a b alo ahi blo bhi).size < bhi then
              matchingBlocksAux a b fuel
                ((find_longest_match a b alo ahi blo bhi).i +
                  (find_longest_match a b alo ahi blo bhi).size) ahi
                ((find_longest_match a b alo ahi blo bhi).j +
                  (find_longest_match a b alo ahi blo bhi).size) bhi
            else []) := by
          by_cases hg : (find_longest_match a b alo ahi blo bhi).i +
                (find_longest_match a b alo ahi blo bhi).size < ahi ∧
              (find_longest_match a b alo ahi blo bhi).j +
                (find_longest_match a b alo ahi blo bhi).size < bhi
          · rw [if_pos hg]
            obtain ⟨hg1, hg2⟩ := hg
            exact ih _ _ _ _ (by omega) (by omega) (by omega)
          · rw [if_neg hg]
            exact okB_nil_intro k3 k5
        rw [List.append_assoc]
        apply okB_append hleft
        have hMid : okB a b (find_longest_match a b alo ahi blo bhi).i
            (find_longest_match a b alo ahi blo bhi).j
            ((find_longest_match a b alo ahi blo bhi).i +
              (find_longest_match a b alo ahi blo bhi).size)
            ((find_longest_match a b alo ahi blo bhi).j +
              (find_longest_match a b alo ahi blo bhi).size)
            [find_longest_match a b alo ahi blo bhi] :=
          okB_cons_intro (le_refl _) (le_refl _) k1 (le_refl _)
            (le_refl _) k6 (okB_nil_intro (le_refl _) (le_refl _))
        exact okB_append hMid hright

theorem mergeBlocks_okB {a b : List String} {I J : ℕ} :
    ∀ (bs : List Best) (i1 j1 k1 : ℕ),
      matchRun a b i1 j1 k1 →
      okB a b (i1 + k1) (j1 + k1) I J bs →
      okB a b i1 j1 I J (mergeBlocks i1 j1 k1 bs) := by
  intro bs
  induction bs with
  | nil =>
    intro i1 j1 k1 hm hok
    obtain ⟨g1, g2⟩ := okB_nil_elim hok
    simp only [mergeBlocks]
    by_cases hz : k1 = 0
    · rw [if_pos hz]
      exact okB_nil_intro (by omega) (by omega)
    · rw [if_neg hz]
      exact okB_cons_intro (le_refl _) (le_refl _) (show 1 ≤ k1 by omega)
        g1 g2 hm (okB_nil_intro g1 g2)
  | cons m rest ih =>
    intro i1 j1 k1 hm hok
    obtain ⟨o1, o2, o3, o4, o5, o6, o7⟩ := okB_cons_elim hok
    simp only [mergeBlocks]
    by_cases hadj : i1 + k1 = m.i ∧ j1 + k1 = m.j
    · rw [if_pos hadj]
      apply ih i1 j1 (k1 + m.size)
      · apply matchRun_append hm
        rw [hadj.1, hadj.2]
        exact o6
      · have e1 : i1 + (k1 + m.size) = m.i + m.size := by omega
        have e2 : j1 + (k1 + m.size) = m.j + m.size := by omega
        rw [e1, e2]
        exact o7
    · rw [if_neg hadj]
      have hrest : okB a b m.i m.j I J (mergeBlocks m.i m.j m.size rest) :=
        ih m.i m.j m.size o6 o7
      by_cases hz : k1 = 0
      · rw [if_pos hz]
        simp only [List.nil_append]
        exact okB_mono_lower hrest (by omega) (by omega)
      · rw [if_neg hz]
        simp only [List.cons_append, List.nil_append]
        exact okB_cons_intro (le_refl _) (le_refl _) (show 1 ≤ k1 by omega)
          (show i1 + k1 ≤ I by omega) (show j1 + k1 ≤ J by omega) hm
          (okB_mono_lower hrest o1 o2)

theorem get_matching_blocks_okB (a b : List String) :
    okB a b 0 0 a.length b.length
      (mergeBlocks 0 0 0
        (matchingBlocksAux a b (a.length + b.length + 1) 0 a.length 0
          b.length)) := by
  apply mergeBlocks_okB _ 0 0 0 (matchRun_zero a b 0 0)
  simpa using matchingBlocksAux_okB (a.length + b.length + 1) 0 a.length 0
    b.length (Nat.zero_le _) (Nat.zero_le _) (by omega)

/-! ## Well-formedness of the opcode lists -/

theorem opsCover_nil_intro {a b : List String} {i j I J : ℕ} (h1 : i = I)
    (h2 : j = J) : opsCover a b i j I J [] :=
  ⟨h1, h2⟩

theorem opsCover_nil_elim {a b : List String} {i j I J : ℕ}
    (h : opsCover a b i j I J []) : i = I ∧ j = J :=
  h

theorem opsCover_cons_intro {a b : List String} {i j I J : ℕ} {c : Opcode}
    {rest : List Opcode} (h1 : c.i1 = i) (h2 : c.j1 = j) (h3 : i ≤ c.i2)
    (h4 : j ≤ c.j2)
    (h5 : c.tag = .equal → c.i2 - c.i1 = c.j2 - c.j1 ∧
      matchRun a b c.i1 c.j1 (c.i2 - c.i1) ∧ c.i2 ≤ a.length ∧
      c.j2 ≤ b.length)
    (h6 : c.tag = .insert → c.i2 = c.i1)
    (h7 : c.tag = .delete → c.j2 = c.j1)
    (h8 : opsCover a b c.i2 c.j2 I J rest) :
    opsCover a b i j I J (c :: rest) :=
  ⟨h1, h2, h3, h4, h5, h6, h7, h8⟩

theorem opsCover_cons_elim {a b : List String} {i j I J : ℕ} {c : Opcode}
    {rest : List Opcode} (h : opsCover a b i j I J (c :: rest)) :
    c.i1 = i ∧ c.j1 = j ∧ i ≤ c.i2 ∧ j ≤ c.j2 ∧
    (c.tag = .equal → c.i2 - c.i1 = c.j2 - c.j1 ∧
      matchRun a b c.i1 c.j1 (c.i2 - c.i1) ∧ c.i2 ≤ a.length ∧
      c.j2 ≤ b.length) ∧
    (c.tag = .insert → c.i2 = c.i1) ∧
    (c.tag = .delete → c.j2 = c.j1) ∧
    opsCover a b c.i2 c.j2 I J rest :=
  h

theorem opsCover_le {a b : List String} :
    ∀ {codes : List Opcode} {i j I J : ℕ},
      opsCover a b i j I J codes → i ≤ I ∧ j ≤ J := by
  intro codes
  induction codes with
  | nil =>
    intro i j I J h
    obtain ⟨h1, h2⟩ := opsCover_nil_elim h
    omega
  | cons c rest ih =>
    intro i j I J h
    obtain ⟨_h1, _h2, h3, h4, _h5, _h6, _h7, h8⟩ := opsCover_cons_elim h
    obtain ⟨g1, g2⟩ := ih h8
    omega

theorem opsCover_append {a b : List String} :
    ∀ {l1 l2 : List Opcode} {i j M N I J : ℕ},
      opsCover a b i j M N l1 → opsCover a b M N I J l2 →
      opsCover a b i j I J (l1 ++ l2) := by
  intro l1
  induction l1 with
  | nil =>
    intro l2 i j M N I J h1 h2
    obtain ⟨g1, g2⟩ := opsCover_nil_elim h1
    subst g1; subst g2
    simpa using h2
  | cons c rest ih =>
    intro l2 i j M N I J h1 h2
    obtain ⟨g1, g2, g3, g4, g5, g6, g7, g8⟩ := opsCover_cons_elim h1
    exact opsCover_cons_intro g1 g2 g3 g4 g5 g6 g7 (ih g8 h2)

theorem gapOps_opsCover (a b : List String) (i j ti tj : ℕ) (hi : i ≤ ti)
    (hj : j ≤ tj) :
    opsCover a b i j ti tj
      (if i < ti ∧ j < tj then [⟨.replace, i, ti, j, tj⟩]
       else if i < ti then [⟨.delete, i, ti, j, tj⟩]
       else if j < tj then [⟨.insert, i, ti, j, tj⟩]
       else []) := by
  by_cases h1 : i < ti ∧ j < tj
  · rw [if_pos h1]
    exact opsCover_cons_intro rfl rfl hi hj (fun h => Tag.noConfusion h)
      (fun h => Tag.noConfusion h) (fun h => Tag.noConfusion h)
      (opsCover_nil_intro rfl rfl)
  · rw [if_neg h1]
    by_cases h2 : i < ti
    · rw [if_pos h2]
      have hjj : tj = j := by omega
      exact opsCover_cons_intro rfl rfl hi hj (fun h => Tag.noConfusion h)
        (fun h => Tag.noConfusion h) (fun _ => hjj)
        (opsCover_nil_intro rfl rfl)
    · rw [if_neg h2]
      by_cases h3 : j < tj
      · rw [if_pos h3]
        have hii : ti = i := by omega
        exact opsCover_cons_intro rfl rfl hi hj (fun h => Tag.noConfusion h)
          (fun _ => hii) (fun h => Tag.noConfusion h)
          (opsCover_nil_intro rfl rfl)
      · rw [if_neg h3]
        exact opsCover_nil_intro (by omega) (by omega)

theorem opcodesAux_sentinel (i j I J : ℕ) :
    opcodesAux i j [⟨I, J, 0⟩] =
      (if i < I ∧ j < J then [⟨.replace, i, I, j, J⟩]
       else if i < I then [⟨.delete, i, I, j, J⟩]
       else if j < J then [⟨.insert, i, I, j, J⟩]
       else []) := by
  simp [opcodesAux]

theorem opcodesAux_opsCover {a b : List String} {I J : ℕ}
    (hI : I ≤ a.length) (hJ : J ≤ b.length) :
    ∀ (bs : List Best) (i j : ℕ),
      okB a b i j I J bs →
      opsCover a b i j I J (opcodesAux i j (bs ++ [⟨I, J, 0⟩])) := by
  intro bs
  induction bs with
  | nil =>
    intro i j hok
    obtain ⟨g1, g2⟩ := okB_nil_elim hok
    rw [List.nil_append, opcodesAux_sentinel]
    exact gapOps_opsCover a b i j I J g1 g2
  | cons m rest ih =>
    intro i j hok
    obtain ⟨o1, o2, o3, o4, o5, o6, o7⟩ := okB_cons_elim hok
    simp only [List.cons_append, opcodesAux]
    have hsz : ¬ (m.size = 0) := by omega
    rw [if_neg hsz, List.append_assoc]
    apply opsCover_append (gapOps_opsCover a b i j m.i m.j o1 o2)
    have hMid : opsCover a b m.i m.j (m.i + m.size) (m.j + m.size)
        [⟨.equal, m.i, m.i + m.size, m.j, m.j + m.size⟩] := by
      refine opsCover_cons_intro rfl rfl
        (show m.i ≤ m.i + m.size by omega)
        (show m.j ≤ m.j + m.size by omega) ?_
        (fun h => Tag.noConfusion h) (fun h => Tag.noConfusion h)
        (opsCover_nil_intro rfl rfl)
      intro _
      refine ⟨show m.i + m.size - m.i = m.j + m.size - m.j by omega, ?_,
        show m.i + m.size ≤ a.length by omega,
        show m.j + m.size ≤ b.length by omega⟩
      show matchRun a b m.i m.j (m.i + m.size - m.i)
      have e : m.i + m.size - m.i = m.size := by omega
      rw [e]
      exact o6
    exact opsCover_append hMid (ih (m.i + m.size) (m.j + m.size) o7)

theorem get_opcodes_opsCover (a b : List String) :
    opsCover a b 0 0 a.length b.length (get_opcodes a b) := by
  unfold get_opcodes get_matching_blocks
  exact opcodesAux_opsCover (le_refl _) (le_refl _) _ 0 0
    (get_matching_blocks_okB a b)

/-! ## Slice reconstruction -/

theorem sliceList_append {α : Type} (l : List α) {i m j : ℕ} (h1 : i ≤ m)
    (h2 : m ≤ j) : sliceList l i m ++ sliceList l m j = sliceList l i j := by
  unfold sliceList
  have e : j - i = (m - i) + (j - m) := by omega
  rw [e, List.take_add, List.drop_drop]
  have e2 : i + (m - i) = m := by omega
  rw [e2]

theorem matchRun_slice_eq {a b : List String} {x y k : ℕ}
    (h : matchRun a b x y k) (ha : x + k ≤ a.length)
    (hb : y + k ≤ b.length) :
    sliceList a x (x + k) = sliceList b y (y + k) := by
  apply List.ext_getElem
  · simp only [sliceList, List.length_take, List.length_drop]
    omega
  · intro t h1 h2
    have ht : t < k := by
      simp only [sliceList, List.length_take, List.length_drop] at h1
      omega
    have hxa : x + t < a.length := by omega
    have hyb : y + t < b.length := by omega
    have e1 := h t ht
    rw [List.getD_eq_getElem a "" hxa, List.getD_eq_getElem b "" hyb] at e1
    simp only [sliceList, List.getElem_take, List.getElem_drop]
    exact e1

theorem opsCover_allEqual_slices {a b : List String} :
    ∀ {codes : List Opcode} {i j : ℕ},
      opsCover a b i j a.length b.length codes →
      (∀ c ∈ codes, c.tag = Tag.equal) →
      sliceList a i a.length = sliceList b j b.length := by
  intro codes
  induction codes with
  | nil =>
    intro i j h _
    obtain ⟨h1, h2⟩ := opsCover_nil_elim h
    rw [h1, h2]
    simp [sliceList]
  | cons c rest ih =>
    intro i j h hall
    obtain ⟨g1, g2, g3, g4, g5, g6, g7, g8⟩ := opsCover_cons_elim h
    obtain ⟨w, hmr, hba, hbb⟩ := g5 (hall c (List.mem_cons_self c rest))
    have hle := opsCover_le g8
    rw [← sliceList_append a g3 hle.1, ← sliceList_append b g4 hle.2]
    congr 1
    · have hw : c.i2 - i = c.j2 - j := by omega
      have hmr2 : matchRun a b i j (c.i2 - i) := by
        rw [g1, g2] at hmr
        exact hmr
      have e1 : c.i2 = i + (c.i2 - i) := by omega
      have e2 : c.j2 = j + (c.i2 - i) := by omega
      rw [e1, e2]
      exact matchRun_slice_eq hmr2 (by omega) (by omega)
    · exact ih g8 (fun d hd => hall d (List.mem_cons_of_mem c hd))

theorem get_opcodes_allEqual_eq {a b : List String}
    (hall : ∀ c ∈ get_opcodes a b, c.tag = Tag.equal) : a = b := by
  have h := opsCover_allEqual_slices (get_opcodes_opsCover a b) hall
  simpa [sliceList] using h

/-! ## A changed opcode always produces a diff group -/

theorem fixFirst_keeps_ne {n : ℕ} {codes : List Opcode}
    (h : ∃ c ∈ codes, c.tag ≠ Tag.equal) :
    ∃ c ∈ fixFirst n codes, c.tag ≠ Tag.equal := by
  obtain ⟨c, hc, hct⟩ := h
  cases codes with
  | nil => simp at hc
  | cons c0 rest =>
    simp only [fixFirst]
    by_cases h0 : c0.tag = Tag.equal
    · rw [if_pos h0]
      rcases List.mem_cons.mp hc with rfl | h2
      · exact absurd h0 hct
      · exact ⟨c, List.mem_cons_of_mem _ h2, hct⟩
    · rw [if_neg h0]
      exact ⟨c, hc, hct⟩

theorem fixLast_keeps_ne {n : ℕ} :
    ∀ {codes : List Opcode}, (∃ c ∈ codes, c.tag ≠ Tag.equal) →
      ∃ c ∈ fixLast n codes, c.tag ≠ Tag.equal := by
  intro codes
  induction codes with
  | nil => intro h; simp at h
  | cons c0 rest ih =>
    intro h
    cases rest with
    | nil =>
      obtain ⟨c, hc, hct⟩ := h
      rcases List.mem_cons.mp hc with rfl | h2
      · simp only [fixLast]
        rw [if_neg hct]
        exact ⟨c, List.mem_cons_self c [], hct⟩
      · simp at h2
    | cons c1 rest2 =>
      obtain ⟨c, hc, hct⟩ := h
      simp only [fixLast]
      rcases List.mem_cons.mp hc with rfl | h2
      · exact ⟨c, List.mem_cons_self c _, hct⟩
      · obtain ⟨d, hd, hdt⟩ := ih ⟨c, h2, hct⟩
        exact ⟨d, List.mem_cons_of_mem _ hd, hdt⟩

theorem groupLoop_ne_nil {n : ℕ} :
    ∀ (rest group : List Opcode),
      ((∃ c ∈ group, c.tag ≠ Tag.equal) ∨ (∃ c ∈ rest, c.tag ≠ Tag.equal)) →
      groupLoop n group rest ≠ [] := by
  intro rest
  induction rest with
  | nil =>
    intro group hex
    rcases hex with ⟨c, hc, hct⟩ | ⟨c, hc, _⟩
    · simp only [groupLoop]
      have hgne : ¬(group = []) := by
        intro hg
        subst hg
        simp at hc
      rw [if_neg hgne]
      by_cases hsingle : group.length = 1 ∧
          (group.headD ⟨.equal, 0, 0, 0, 0⟩).tag = Tag.equal
      · exfalso
        obtain ⟨hl, hh⟩ := hsingle
        obtain ⟨x, hx⟩ := List.length_eq_one.mp hl
        subst hx
        have : c = x := by simpa using hc
        subst this
        exact hct (by simpa using hh)
      · rw [if_neg hsingle]
        simp
    · simp at hc
  | cons c0 rest ih =>
    intro group hex
    simp only [groupLoop]
    by_cases hsplit : c0.tag = Tag.equal ∧ n + n < c0.i2 - c0.i1
    · rw [if_pos hsplit]
      simp
    · rw [if_neg hsplit]
      apply ih
      rcases hex with ⟨c, hc, hct⟩ | ⟨c, hc, hct⟩
      · exact Or.inl ⟨c, List.mem_append_left _ hc, hct⟩
      · rcases List.mem_cons.mp hc with rfl | hc2
        · exact Or.inl ⟨c, List.mem_append_right _ (by simp), hct⟩
        · exact Or.inr ⟨c, hc2, hct⟩

theorem grouped_ne_nil_of_ne {a b : List String} (n : ℕ) (hab : a ≠ b) :
    get_grouped_opcodes a b n ≠ [] := by
  simp only [get_grouped_opcodes]
  by_cases hnil : get_opcodes a b = []
  · exfalso
    have h := get_opcodes_opsCover a b
    rw [hnil] at h
    obtain ⟨h1, h2⟩ := opsCover_nil_elim h
    exact hab (by
      rw [List.length_eq_zero.mp h1.symm, List.length_eq_zero.mp h2.symm])
  · rw [if_neg hnil]
    have hex : ∃ c ∈ get_opcodes a b, c.tag ≠ Tag.equal := by
      by_contra hno
      push_neg at hno
      exact hab (get_opcodes_allEqual_eq (fun c hc => by
        have := hno c hc
        simpa using this))
    exact groupLoop_ne_nil _ _
      (Or.inr (fixLast_keeps_ne (fixFirst_keeps_ne hex)))

theorem intercalate_go_length (s : String) :
    ∀ (l : List String) (acc : String),
      acc.length ≤ (String.intercalate.go acc s l).length := by
  intro l
  induction l with
  | nil => intro acc; exact le_refl _
  | cons x xs ih =>
    intro acc
    calc acc.length ≤ (acc ++ s ++ x).length := by
          simp only [String.length_append]
          omega
      _ ≤ _ := ih (acc ++ s ++ x)

theorem intercalate_cons_ne_empty {s x : String} {xs : List String}
    (hx : 0 < x.length) : String.intercalate s (x :: xs) ≠ "" := by
  intro h
  have h1 : x.length ≤ (String.intercalate s (x :: xs)).length :=
    intercalate_go_length s xs x
  rw [h] at h1
  simp at h1
  omega

/-! ## Comparing a sequence with itself: the diagonal analysis -/

theorem visible_iff {a : List String} {j : ℕ} :
    visible a j = true ↔ j ∈ b2j a (a.getD j "") := by
  simp [visible]

theorem mem_b2j_visible {a : List String} {r j : ℕ}
    (h : j ∈ b2j a (a.getD r "")) : visible a j = true := by
  rw [visible_iff, (b2j_mem h).1]
  exact h

theorem visible_of_row_mem {a : List String} {r j : ℕ} (hr : r < a.length)
    (h : j ∈ b2j a (a.getD r "")) : visible a r = true := by
  rw [visible_iff]
  unfold b2j at h ⊢
  by_cases hp : isPopular a (a.getD r "") = true
  · rw [if_pos hp] at h
    simp at h
  · rw [if_neg hp]
    exact List.mem_filter.mpr ⟨List.mem_range.mpr hr, by simp⟩

theorem visible_mem_row {a : List String} {r : ℕ} (_hr : r < a.length)
    (h : visible a r = true) : r ∈ b2j a (a.getD r "") :=
  visible_iff.mp h

theorem diagRun_of_visible {a : List String} {r : ℕ}
    (h : visible a r = true) : diagRun a r = diagPrev a r + 1 := by
  cases r with
  | zero => simp [diagRun, diagPrev, h]
  | succ r0 => simp [diagRun, diagPrev, h]

theorem diagRun_of_not_visible {a : List String} {r : ℕ}
    (h : ¬ visible a r = true) : diagRun a r = 0 := by
  cases r with
  | zero => simp [diagRun, h]
  | succ r0 => simp [diagRun, h]

theorem diagPrev_le_maxD (a : List String) (r : ℕ) :
    diagPrev a r ≤ maxD a r := by
  cases r with
  | zero => exact le_refl 0
  | succ r0 => exact le_max_right _ _

theorem diagRun_le_maxD {a : List String} {j r : ℕ} (h : j < r) :
    diagRun a j ≤ maxD a r := by
  induction r with
  | zero => omega
  | succ r0 ih =>
    rcases Nat.lt_succ_iff_lt_or_eq.mp h with h1 | h1
    · exact le_trans (ih h1) (le_max_left _ _)
    · subst h1
      exact le_max_right _ _

theorem sorted_split_at_mem {js : List ℕ} {r : ℕ}
    (hs : List.Pairwise (· < ·) js) (hr : r ∈ js) :
    ∃ l h, js = l ++ r :: h ∧ (∀ x ∈ l, x < r) ∧ (∀ x ∈ h, r < x) := by
  induction js with
  | nil => simp at hr
  | cons x rest ih =>
    rcases List.mem_cons.mp hr with rfl | h2
    · exact ⟨[], rest, rfl, by simp,
        fun y hy => (List.pairwise_cons.mp hs).1 y hy⟩
    · obtain ⟨l, h, e, hl, hh⟩ := ih (List.pairwise_cons.mp hs).2 h2
      refine ⟨x :: l, h, by rw [List.cons_append, e], ?_, hh⟩
      intro y hy
      rcases List.mem_cons.mp hy with rfl | hy2
      · exact (List.pairwise_cons.mp hs).1 r h2
      · exact hl y hy2

theorem foldl_bestStep_const {r : ℕ} {f : ℕ → ℕ} :
    ∀ (l : List ℕ) (m : Best), (∀ j ∈ l, candK f j ≤ m.size) →
      l.foldl (bestStep r f) m = m := by
  intro l
  induction l with
  | nil => intro m _; rfl
  | cons j l ih =>
    intro m hall
    simp only [List.foldl_cons]
    have hstep : bestStep r f m j = m := by
      unfold bestStep
      rw [if_neg (by
        have := hall j (List.mem_cons_self j l)
        omega)]
    rw [hstep]
    exact ih m (fun x hx => hall x (List.mem_cons_of_mem j hx))

theorem b2j_processed (b : List String) (v : String) :
    ((b2j b v).filter (fun j => decide (0 ≤ j))).takeWhile
      (fun j => decide (j < b.length)) = b2j b v := by
  have h1 : (b2j b v).filter (fun j => decide (0 ≤ j)) = b2j b v :=
    List.filter_eq_self.mpr (fun j _ => by simp)
  rw [h1]
  exact takeWhile_eq_self_of_all _ _ (fun j hj => by
    simp only [decide_eq_true_eq]
    exact (b2j_mem hj).2)

theorem flmRow_diag {a : List String} {r : ℕ} (hr : r < a.length)
    {f : ℕ → ℕ} {best : Best}
    (hI1 : ∀ j, f j ≤ diagPrev a r)
    (hI2 : ∀ j, f j ≤ diagRun a j)
    (hI3 : ∀ r0, r = r0 + 1 → f r0 = diagRun a r0)
    (hb1 : best.i = best.j) (hb2 : best.size = maxD a r)
    (hb3 : best.size = 0 → best = ⟨0, 0, 0⟩) :
    (∀ j, ((b2j a (a.getD r "")).foldl
        (fun g0 j => fun jq => if jq = j then candK f j else g0 jq)
        (fun _ => 0)) j ≤ diagPrev a (r + 1)) ∧
    (∀ j, ((b2j a (a.getD r "")).foldl
        (fun g0 j => fun jq => if jq = j then candK f j else g0 jq)
        (fun _ => 0)) j ≤ diagRun a j) ∧
    (∀ r0, r + 1 = r0 + 1 →
      ((b2j a (a.getD r "")).foldl
        (fun g0 j => fun jq => if jq = j then candK f j else g0 jq)
        (fun _ => 0)) r0 = diagRun a r0) ∧
    ((b2j a (a.getD r "")).foldl (bestStep r f) best).i =
      ((b2j a (a.getD r "")).foldl (bestStep r f) best).j ∧
    ((b2j a (a.getD r "")).foldl (bestStep r f) best).size = maxD a (r + 1) ∧
    (((b2j a (a.getD r "")).foldl (bestStep r f) best).size = 0 →
      (b2j a (a.getD r "")).foldl (bestStep r f) best = ⟨0, 0, 0⟩) := by
  have hprev : diagPrev a (r + 1) = diagRun a r := rfl
  have hcand_row : ∀ j ∈ b2j a (a.getD r ""), candK f j ≤ diagRun a r := by
    intro j hj
    have hvr := visible_of_row_mem hr hj
    rw [diagRun_of_visible hvr]
    unfold candK
    by_cases hj0 : j = 0
    · rw [if_pos hj0]
      omega
    · rw [if_neg hj0]
      have := hI1 (j - 1)
      omega
  have hcand_col : ∀ j ∈ b2j a (a.getD r ""), candK f j ≤ diagRun a j := by
    intro j hj
    have hvj := mem_b2j_visible hj
    rw [diagRun_of_visible hvj]
    cases j with
    | zero =>
      have e : candK f 0 = 1 := rfl
      rw [e]
      omega
    | succ j0 =>
      have e : candK f (j0 + 1) = f j0 + 1 := by
        unfold candK
        simp
      have e2 : diagPrev a (j0 + 1) = diagRun a j0 := rfl
      have := hI2 j0
      omega
  have hcand_diag : visible a r = true → candK f r = diagRun a r := by
    intro hv
    rw [diagRun_of_visible hv]
    cases r with
    | zero => rfl
    | succ r1 =>
      have e : candK f (r1 + 1) = f r1 + 1 := by
        unfold candK
        simp
      have e2 : diagPrev a (r1 + 1) = diagRun a r1 := rfl
      rw [e, e2, hI3 r1 rfl]
  refine ⟨?_, ?_, ?_, ?_⟩
  · intro j
    rw [foldl_upd_apply]
    by_cases hj : j ∈ b2j a (a.getD r "")
    · rw [if_pos hj, hprev]
      exact hcand_row j hj
    · rw [if_neg hj]
      exact Nat.zero_le _
  · intro j
    rw [foldl_upd_apply]
    by_cases hj : j ∈ b2j a (a.getD r "")
    · rw [if_pos hj]
      exact hcand_col j hj
    · rw [if_neg hj]
      exact Nat.zero_le _
  · intro r0 hr0
    have hrr : r0 = r := by omega
    subst hrr
    rw [foldl_upd_apply]
    by_cases hv : visible a r0 = true
    · rw [if_pos (visible_iff.mp hv)]
      exact hcand_diag hv
    · rw [if_neg (fun hmem => hv (mem_b2j_visible hmem)),
        diagRun_of_not_visible hv]
  · -- the best-match components
    by_cases hcase : diagRun a r ≤ maxD a r
    · have hconst : (b2j a (a.getD r "")).foldl (bestStep r f) best = best :=
        foldl_bestStep_const _ best (fun j hj => by
          have := hcand_row j hj
          omega)
      rw [hconst]
      have hmx : maxD a (r + 1) = maxD a r := by
        have e : maxD a (r + 1) = max (maxD a r) (diagRun a r) := rfl
        rw [e]
        omega
      exact ⟨hb1, by rw [hmx]; exact hb2, hb3⟩
    · have hv : visible a r = true := by
        by_contra hnv
        have := diagRun_of_not_visible hnv
        omega
      have h1 : diagRun a r = maxD a r + 1 := by
        have e1 := diagRun_of_visible hv
        have e2 := diagPrev_le_maxD a r
        omega
      obtain ⟨lfts, rgts, hsplit, hlfts, hrgts⟩ :=
        sorted_split_at_mem (b2j_sorted a (a.getD r "")) (visible_iff.mp hv)
      rw [hsplit, List.foldl_append, List.foldl_cons]
      have hfold1 : lfts.foldl (bestStep r f) best = best :=
        foldl_bestStep_const _ best (fun j hj => by
          have hmemj : j ∈ b2j a (a.getD r "") := by
            rw [hsplit]
            exact List.mem_append_left _ hj
          have hc := hcand_col j hmemj
          have hd := diagRun_le_maxD (a := a) (hlfts j hj)
          omega)
      rw [hfold1]
      have hstep : bestStep r f best r =
          ⟨r + 1 - diagRun a r, r + 1 - diagRun a r, diagRun a r⟩ := by
        unfold bestStep
        rw [hcand_diag hv]
        rw [if_pos (by omega)]
      rw [hstep]
      have hfold2 : rgts.foldl (bestStep r f)
          ⟨r + 1 - diagRun a r, r + 1 - diagRun a r, diagRun a r⟩ =
          ⟨r + 1 - diagRun a r, r + 1 - diagRun a r, diagRun a r⟩ :=
        foldl_bestStep_const _ _ (fun j hj => by
          have hmemj : j ∈ b2j a (a.getD r "") := by
            rw [hsplit]
            exact List.mem_append_right _ (List.mem_cons_of_mem _ hj)
          exact hcand_row j hmemj)
      rw [hfold2]
      refine ⟨rfl, ?_, ?_⟩
      · show diagRun a r = maxD a (r + 1)
        have e : maxD a (r + 1) = max (maxD a r) (diagRun a r) := rfl
        rw [e]
        omega
      · intro habs
        have : diagRun a r = 0 := habs
        omega

theorem flmRows_diag {a : List String} :
    ∀ (n r : ℕ) (f : ℕ → ℕ) (best : Best),
      r + n ≤ a.length →
      (∀ j, f j ≤ diagPrev a r) → (∀ j, f j ≤ diagRun a j) →
      (∀ r0, r = r0 + 1 → f r0 = diagRun a r0) →
      best.i = best.j → best.size = maxD a r →
      (best.size = 0 → best = ⟨0, 0, 0⟩) →
      (flmRows a a 0 a.length (List.range' r n) (f, best)).2.i =
        (flmRows a a 0 a.length (List.range' r n) (f, best)).2.j ∧
      (flmRows a a 0 a.length (List.range' r n) (f, best)).2.size =
        maxD a (r + n) ∧
      ((flmRows a a 0 a.length (List.range' r n) (f, best)).2.size = 0 →
        (flmRows a a 0 a.length (List.range' r n) (f, best)).2 =
          ⟨0, 0, 0⟩) := by
  intro n
  induction n with
  | zero =>
    intro r f best _ _ _ _ hb1 hb2 hb3
    refine ⟨hb1, ?_, hb3⟩
    show best.size = maxD a (r + 0)
    rw [Nat.add_zero]
    exact hb2
  | succ n ih =>
    intro r f best hle hI1 hI2 hI3 hb1 hb2 hb3
    rw [List.range'_succ]
    simp only [flmRows]
    rw [flmRow_eq, b2j_processed]
    obtain ⟨m1, m2, m3, m4, m5, m6⟩ :=
      flmRow_diag (show r < a.length by omega) hI1 hI2 hI3 hb1 hb2 hb3
    have e : r + (n + 1) = r + 1 + n := by omega
    rw [e]
    exact ih (r + 1)
      ((b2j a (a.getD r "")).foldl
        (fun g0 j => fun jq => if jq = j then candK f j else g0 jq)
        (fun _ => 0))
      ((b2j a (a.getD r "")).foldl (bestStep r f) best)
      (by omega) m1 m2 m3 m4 m5 m6

theorem extendLower_diag (a : List String) :
    ∀ (fuel p s : ℕ), p ≤ fuel →
      extendLower a a 0 0 fuel ⟨p, p, s⟩ = ⟨0, 0, s + p⟩ := by
  intro fuel
  induction fuel with
  | zero =>
    intro p s hp
    have hp0 : p = 0 := by omega
    subst hp0
    show (⟨0, 0, s⟩ : Best) = ⟨0, 0, s + 0⟩
    rw [Nat.add_zero]
  | succ fuel ih =>
    intro p s hp
    cases p with
    | zero =>
      simp only [extendLower]
      rw [if_neg (by simp)]
      show (⟨0, 0, s⟩ : Best) = ⟨0, 0, s + 0⟩
      rw [Nat.add_zero]
    | succ p0 =>
      simp only [extendLower]
      rw [if_pos ⟨Nat.succ_pos p0, Nat.succ_pos p0, trivial⟩]
      show extendLower a a 0 0 fuel ⟨p0, p0, s + 1⟩ = ⟨0, 0, s + (p0 + 1)⟩
      rw [ih p0 (s + 1) (by omega)]
      have e : s + 1 + p0 = s + (p0 + 1) := by omega
      rw [e]

theorem extendUpper_diag (a : List String) :
    ∀ (fuel s : ℕ), s ≤ a.length → a.length - s ≤ fuel →
      extendUpper a a a.length a.length fuel ⟨0, 0, s⟩ =
        ⟨0, 0, a.length⟩ := by
  intro fuel
  induction fuel with
  | zero =>
    intro s h1 h2
    have hs : s = a.length := by omega
    subst hs
    rfl
  | succ fuel ih =>
    intro s h1 h2
    by_cases hs : s < a.length
    · simp only [extendUpper]
      rw [if_pos (⟨by omega, by omega, trivial⟩ :
        (0 + s < a.length) ∧ (0 + s < a.length) ∧ True)]
      show extendUpper a a a.length a.length fuel ⟨0, 0, s + 1⟩ =
        ⟨0, 0, a.length⟩
      exact ih (s + 1) (by omega) (by omega)
    · have he : s = a.length := by omega
      subst he
      simp only [extendUpper]
      rw [if_neg (by
        intro hc
        exact absurd hc.1 (by omega))]

theorem flm_self (a : List String) :
    find_longest_match a a 0 a.length 0 a.length = ⟨0, 0, a.length⟩ := by
  have hrows := flmRows_diag (a := a) a.length 0 (fun _ => 0) ⟨0, 0, 0⟩
    (by omega) (fun _ => le_refl 0) (fun _ => Nat.zero_le _)
    (fun r0 h => absurd h (by omega)) rfl rfl (fun _ => rfl)
  have hInv := @flmRows_inv a a 0 a.length 0 a.length a.length 0
    (fun _ => 0) ⟨0, 0, 0⟩
    (le_refl 0) (by omega) (fun j hj => absurd rfl hj)
    (Or.inl ⟨rfl, rfl, rfl⟩)
  obtain ⟨d1, _d2, _d3⟩ := hrows
  simp only [find_longest_match, Nat.sub_zero]
  rcases hX : (flmRows a a 0 a.length (List.range' 0 a.length)
      ((fun _ => 0), ⟨0, 0, 0⟩)).2 with ⟨p, q, s⟩
  rw [hX] at d1 hInv
  have d1n : p = q := d1
  subst d1n
  have hs : s + p ≤ a.length := by
    rcases hInv with ⟨e1, _e2, e3⟩ | ⟨k1, _k2, k3, _k4, _k5, _k6⟩
    · have f1 : p = 0 := e1
      have f3 : s = 0 := e3
      omega
    · have f1 : p + s ≤ a.length := k3
      omega
  rw [extendLower_diag a p p s (le_refl p)]
  show extendUpper a a a.length a.length (a.length - (0 + (s + p)))
    ⟨0, 0, s + p⟩ = ⟨0, 0, a.length⟩
  exact extendUpper_diag a (a.length - (0 + (s + p))) (s + p) hs (by omega)

theorem matchingBlocksAux_self (a : List String) (fuel : ℕ) :
    matchingBlocksAux a a (fuel + 1) 0 a.length 0 a.length =
      if a.length = 0 then [] else [⟨0, 0, a.length⟩] := by
  simp only [matchingBlocksAux, flm_self]
  by_cases hz : a.length = 0
  · simp [hz]
  · simp [hz]

theorem get_matching_blocks_self (a : List String) :
    get_matching_blocks a a =
      if a.length = 0 then [⟨0, 0, 0⟩]
      else [⟨0, 0, a.length⟩, ⟨a.length, a.length, 0⟩] := by
  unfold get_matching_blocks
  rw [matchingBlocksAux_self]
  by_cases hz : a.length = 0
  · rw [if_pos hz, if_pos hz]
    simp [mergeBlocks, hz]
  · rw [if_neg hz, if_neg hz]
    simp [mergeBlocks, hz]

theorem get_opcodes_self (a : List String) :
    get_opcodes a a =
      if a.length = 0 then []
      else [⟨.equal, 0, a.length, 0, a.length⟩] := by
  unfold get_opcodes
  rw [get_matching_blocks_self]
  by_cases hz : a.length = 0
  · rw [if_pos hz, if_pos hz]
    simp [opcodesAux]
  · rw [if_neg hz, if_neg hz]
    simp [opcodesAux, hz]

theorem groupLoop_single_equal (n : ℕ) (c : Opcode) (hc : c.tag = Tag.equal)
    (hspan : ¬ (n + n < c.i2 - c.i1)) : groupLoop n [] [c] = [] := by
  simp only [groupLoop]
  rw [if_neg (fun h => hspan h.2)]
  simp only [List.nil_append, groupLoop]
  rw [if_neg (by simp)]
  rw [if_pos ⟨by simp, by simp [hc]⟩]

theorem get_grouped_opcodes_self (a : List String) (n : ℕ) :
    get_grouped_opcodes a a n = [] := by
  simp only [get_grouped_opcodes, get_opcodes_self]
  by_cases hz : a.length = 0
  · rw [if_pos hz, if_pos rfl]
    have hf1 : fixFirst n [(⟨.equal, 0, 1, 0, 1⟩ : Opcode)] =
        [⟨.equal, max 0 (1 - n), 1, max 0 (1 - n), 1⟩] := by
      simp [fixFirst]
    rw [hf1]
    have hf2 : fixLast n
        [(⟨.equal, max 0 (1 - n), 1, max 0 (1 - n), 1⟩ : Opcode)] =
        [⟨.equal, max 0 (1 - n), min 1 (max 0 (1 - n) + n),
          max 0 (1 - n), min 1 (max 0 (1 - n) + n)⟩] := by
      simp [fixLast]
    rw [hf2]
    apply groupLoop_single_equal _ _ rfl
    show ¬ (n + n < min 1 (max 0 (1 - n) + n) - max 0 (1 - n))
    omega
  · rw [if_neg hz, if_neg (by simp)]
    have hf1 : fixFirst n [(⟨.equal, 0, a.length, 0, a.length⟩ : Opcode)] =
        [⟨.equal, max 0 (a.length - n), a.length,
          max 0 (a.length - n), a.length⟩] := by
      simp [fixFirst]
    rw [hf1]
    have hf2 : fixLast n [(⟨.equal, max 0 (a.length - n), a.length,
        max 0 (a.length - n), a.length⟩ : Opcode)] =
        [⟨.equal, max 0 (a.length - n),
          min a.length (max 0 (a.length - n) + n),
          max 0 (a.length - n),
          min a.length (max 0 (a.length - n) + n)⟩] := by
      simp [fixLast]
    rw [hf2]
    apply groupLoop_single_equal _ _ rfl
    show ¬ (n + n < min a.length (max 0 (a.length - n) + n) -
      max 0 (a.length - n))
    omega

theorem unifiedDiff_self (a : List String) (fromfile tofile : String)
    (n : ℕ) : unifiedDiff a a fromfile tofile n = [] := by
  simp [unifiedDiff, get_grouped_opcodes_self]

theorem unifiedDiff_head {a b : List String} {fromfile tofile : String}
    {n : ℕ} {x : String} {xs : List String}
    (h : unifiedDiff a b fromfile tofile n = x :: xs) :
    x = "--- " ++ fromfile := by
  unfold unifiedDiff at h
  rcases hgg : get_grouped_opcodes a b n with _ | ⟨g, gs⟩
  · rw [hgg] at h
    exact List.noConfusion h
  · rw [hgg] at h
    have h2 : ("--- " ++ fromfile) :: ("+++ " ++ tofile) ::
        (g :: gs).flatMap (hunkOf a b) = x :: xs := h
    injection h2 with h3 _h4
    exact h3.symm

/-- **C2**.  The unified diff that `mindiff_text_files` computes (and
writes, `'\n'`-joined) is empty exactly when the two input line sequences
are identical — for every context count and any file labels. -/
theorem C2_diff_empty_iff (a b : List String) (fromfile tofile : String)
    (n : ℕ) :
    (unifiedDiff a b fromfile tofile n = [] ↔ a = b) ∧
    (String.intercalate "\n" (unifiedDiff a b fromfile tofile n) = "" ↔
      a = b) := by
  have hmain : unifiedDiff a b fromfile tofile n = [] ↔ a = b := by
    constructor
    · intro h
      by_contra hab
      have hg := grouped_ne_nil_of_ne n hab
      unfold unifiedDiff at h
      rcases hgg : get_grouped_opcodes a b n with _ | ⟨g, gs⟩
      · exact hg hgg
      · rw [hgg] at h
        exact List.noConfusion h
    · intro h
      subst h
      exact unifiedDiff_self a fromfile tofile n
  refine ⟨hmain, ?_, ?_⟩
  · intro h
    rw [← hmain]
    rcases hd : unifiedDiff a b fromfile tofile n with _ | ⟨x, xs⟩
    · rfl
    · exfalso
      have hx : x = "--- " ++ fromfile := unifiedDiff_head hd
      rw [hd] at h
      refine intercalate_cons_ne_empty ?_ h
      rw [hx, String.length_append]
      have h4 : ("--- " : String).length = 4 := rfl
      omega
  · intro h
    rw [hmain.mpr h]
    rfl

/-! ## Every emitted diff group is a well-formed opcode chain -/

theorem fixFirst_opsCover {a b : List String} {n : ℕ} {codes : List Opcode}
    {i j I J : ℕ} (h : opsCover a b i j I J codes) :
    ∃ i2 j2, opsCover a b i2 j2 I J (fixFirst n codes) := by
  cases codes with
  | nil => exact ⟨i, j, h⟩
  | cons c rest =>
    obtain ⟨g1, g2, g3, g4, g5, g6, g7, g8⟩ := opsCover_cons_elim h
    simp only [fixFirst]
    by_cases hc : c.tag = Tag.equal
    · rw [if_pos hc]
      obtain ⟨w, hmr, hba, hbb⟩ := g5 hc
      have hc1 : c.i1 ≤ c.i2 := by omega
      have hc2 : c.j1 ≤ c.j2 := by omega
      refine ⟨max c.i1 (c.i2 - n), max c.j1 (c.j2 - n), ?_⟩
      apply opsCover_cons_intro
        (c := ⟨.equal, max c.i1 (c.i2 - n), c.i2, max c.j1 (c.j2 - n), c.j2⟩)
        rfl rfl
        (show max c.i1 (c.i2 - n) ≤ c.i2 by omega)
        (show max c.j1 (c.j2 - n) ≤ c.j2 by omega) ?_
        (fun hx => Tag.noConfusion hx) (fun hx => Tag.noConfusion hx) g8
      intro _
      refine ⟨show c.i2 - max c.i1 (c.i2 - n) = c.j2 - max c.j1 (c.j2 - n)
        by omega, ?_, hba, hbb⟩
      show matchRun a b (max c.i1 (c.i2 - n)) (max c.j1 (c.j2 - n))
        (c.i2 - max c.i1 (c.i2 - n))
      have hd : max c.i1 (c.i2 - n) - c.i1 ≤ c.i2 - c.i1 := by omega
      have hdrop := matchRun_drop hmr hd
      have e1 : c.i1 + (max c.i1 (c.i2 - n) - c.i1) = max c.i1 (c.i2 - n) :=
        by omega
      have e2 : c.j1 + (max c.i1 (c.i2 - n) - c.i1) = max c.j1 (c.j2 - n) :=
        by omega
      have e3 : c.i2 - c.i1 - (max c.i1 (c.i2 - n) - c.i1) =
        c.i2 - max c.i1 (c.i2 - n) := by omega
      rw [e1, e2, e3] at hdrop
      exact hdrop
    · rw [if_neg hc]
      exact ⟨i, j, h⟩

theorem fixLast_opsCover {a b : List String} {n : ℕ} :
    ∀ {codes : List Opcode} {i j I J : ℕ}, opsCover a b i j I J codes →
      ∃ I2 J2, opsCover a b i j I2 J2 (fixLast n codes) := by
  intro codes
  induction codes with
  | nil => intro i j I J h; exact ⟨I, J, h⟩
  | cons c rest ih =>
    intro i j I J h
    obtain ⟨g1, g2, g3, g4, g5, g6, g7, g8⟩ := opsCover_cons_elim h
    cases rest with
    | nil =>
      simp only [fixLast]
      by_cases hc : c.tag = Tag.equal
      · rw [if_pos hc]
        obtain ⟨w, hmr, hba, hbb⟩ := g5 hc
        have hc1 : c.i1 ≤ c.i2 := by omega
        have hc2 : c.j1 ≤ c.j2 := by omega
        refine ⟨min c.i2 (c.i1 + n), min c.j2 (c.j1 + n), ?_⟩
        apply opsCover_cons_intro
          (c := ⟨.equal, c.i1, min c.i2 (c.i1 + n), c.j1,
            min c.j2 (c.j1 + n)⟩)
          g1 g2
          (show i ≤ min c.i2 (c.i1 + n) by omega)
          (show j ≤ min c.j2 (c.j1 + n) by omega) ?_
          (fun hx => Tag.noConfusion hx) (fun hx => Tag.noConfusion hx)
          (opsCover_nil_intro rfl rfl)
        intro _
        refine ⟨show min c.i2 (c.i1 + n) - c.i1 = min c.j2 (c.j1 + n) - c.j1
          by omega, ?_,
          show min c.i2 (c.i1 + n) ≤ a.length by omega,
          show min c.j2 (c.j1 + n) ≤ b.length by omega⟩
        show matchRun a b c.i1 c.j1 (min c.i2 (c.i1 + n) - c.i1)
        exact matchRun_mono hmr (by omega)
      · rw [if_neg hc]
        exact ⟨I, J, h⟩
    | cons c1 rest2 =>
      obtain ⟨I2, J2, hcov⟩ := ih g8
      exact ⟨I2, J2, opsCover_cons_intro g1 g2 g3 g4 g5 g6 g7 hcov⟩

theorem equal_truncEnd_opsCover {a b : List String} {n : ℕ} {c : Opcode}
    {m p : ℕ} (g1 : c.i1 = m) (g2 : c.j1 = p) (g3 : m ≤ c.i2)
    (g4 : p ≤ c.j2) (w : c.i2 - c.i1 = c.j2 - c.j1)
    (hmr : matchRun a b c.i1 c.j1 (c.i2 - c.i1)) (hba : c.i2 ≤ a.length)
    (hbb : c.j2 ≤ b.length) :
    opsCover a b m p (min c.i2 (c.i1 + n)) (min c.j2 (c.j1 + n))
      [⟨.equal, c.i1, min c.i2 (c.i1 + n), c.j1, min c.j2 (c.j1 + n)⟩] := by
  have hc1 : c.i1 ≤ c.i2 := by omega
  have hc2 : c.j1 ≤ c.j2 := by omega
  apply opsCover_cons_intro
    (c := ⟨.equal, c.i1, min c.i2 (c.i1 + n), c.j1, min c.j2 (c.j1 + n)⟩)
    g1 g2
    (show m ≤ min c.i2 (c.i1 + n) by omega)
    (show p ≤ min c.j2 (c.j1 + n) by omega) ?_
    (fun hx => Tag.noConfusion hx) (fun hx => Tag.noConfusion hx)
    (opsCover_nil_intro rfl rfl)
  intro _
  refine ⟨show min c.i2 (c.i1 + n) - c.i1 = min c.j2 (c.j1 + n) - c.j1
    by omega, ?_,
    show min c.i2 (c.i1 + n) ≤ a.length by omega,
    show min c.j2 (c.j1 + n) ≤ b.length by omega⟩
  show matchRun a b c.i1 c.j1 (min c.i2 (c.i1 + n) - c.i1)
  exact matchRun_mono hmr (by omega)

theorem equal_truncStart_opsCover {a b : List String} {n : ℕ} {c : Opcode}
    (hle1 : c.i1 ≤ c.i2) (hle2 : c.j1 ≤ c.j2)
    (w : c.i2 - c.i1 = c.j2 - c.j1)
    (hmr : matchRun a b c.i1 c.j1 (c.i2 - c.i1)) (hba : c.i2 ≤ a.length)
    (hbb : c.j2 ≤ b.length) :
    opsCover a b (max c.i1 (c.i2 - n)) (max c.j1 (c.j2 - n)) c.i2 c.j2
      [⟨.equal, max c.i1 (c.i2 - n), c.i2, max c.j1 (c.j2 - n), c.j2⟩] := by
  apply opsCover_cons_intro
    (c := ⟨.equal, max c.i1 (c.i2 - n), c.i2, max c.j1 (c.j2 - n), c.j2⟩)
    rfl rfl
    (show max c.i1 (c.i2 - n) ≤ c.i2 by omega)
    (show max c.j1 (c.j2 - n) ≤ c.j2 by omega) ?_
    (fun hx => Tag.noConfusion hx) (fun hx => Tag.noConfusion hx)
    (opsCover_nil_intro rfl rfl)
  intro _
  refine ⟨show c.i2 - max c.i1 (c.i2 - n) = c.j2 - max c.j1 (c.j2 - n)
    by omega, ?_, hba, hbb⟩
  show matchRun a b (max c.i1 (c.i2 - n)) (max c.j1 (c.j2 - n))
    (c.i2 - max c.i1 (c.i2 - n))
  have hd : max c.i1 (c.i2 - n) - c.i1 ≤ c.i2 - c.i1 := by omega
  have hdrop := matchRun_drop hmr hd
  have e1 : c.i1 + (max c.i1 (c.i2 - n) - c.i1) = max c.i1 (c.i2 - n) :=
    by omega
  have e2 : c.j1 + (max c.i1 (c.i2 - n) - c.i1) = max c.j1 (c.j2 - n) :=
    by omega
  have e3 : c.i2 - c.i1 - (max c.i1 (c.i2 - n) - c.i1) =
    c.i2 - max c.i1 (c.i2 - n) := by omega
  rw [e1, e2, e3] at hdrop
  exact hdrop

theorem groupLoop_groups_opsCover {a b : List String} {n : ℕ} :
    ∀ (rest group : List Opcode) (i j m p I J : ℕ),
      opsCover a b i j m p group → opsCover a b m p I J rest →
      ∀ g ∈ groupLoop n group rest,
        g ≠ [] ∧ ∃ x y X Y, opsCover a b x y X Y g := by
  intro rest
  induction rest with
  | nil =>
    intro group i j m p I J hg _hr g hmem
    simp only [groupLoop] at hmem
    by_cases h1 : group = []
    · rw [if_pos h1] at hmem
      simp at hmem
    · rw [if_neg h1] at hmem
      by_cases h2 : group.length = 1 ∧
          (group.headD ⟨.equal, 0, 0, 0, 0⟩).tag = Tag.equal
      · rw [if_pos h2] at hmem
        simp at hmem
      · rw [if_neg h2] at hmem
        have hgg : g = group := by simpa using hmem
        subst hgg
        exact ⟨h1, i, j, m, p, hg⟩
  | cons c rest ih =>
    intro group i j m p I J hg hr g hmem
    obtain ⟨g1, g2, g3, g4, g5, g6, g7, g8⟩ := opsCover_cons_elim hr
    simp only [groupLoop] at hmem
    by_cases hsplit : c.tag = Tag.equal ∧ n + n < c.i2 - c.i1
    · rw [if_pos hsplit] at hmem
      obtain ⟨w, hmr, hba, hbb⟩ := g5 hsplit.1
      rcases List.mem_cons.mp hmem with rfl | hmem2
      · refine ⟨by simp, i, j, min c.i2 (c.i1 + n), min c.j2 (c.j1 + n), ?_⟩
        exact opsCover_append hg
          (equal_truncEnd_opsCover g1 g2 g3 g4 w hmr hba hbb)
      · exact ih _ (max c.i1 (c.i2 - n)) (max c.j1 (c.j2 - n)) c.i2 c.j2 I J
          (equal_truncStart_opsCover (by omega) (by omega) w hmr hba hbb)
          g8 g hmem2
    · rw [if_neg hsplit] at hmem
      exact ih (group ++ [c]) i j c.i2 c.j2 I J
        (opsCover_append hg
          (opsCover_cons_intro g1 g2 g3 g4 g5 g6 g7
            (opsCover_nil_intro rfl rfl)))
        g8 g hmem

theorem grouped_nil_of_codes_nil {a b : List String} {n : ℕ}
    (h : get_opcodes a b = []) : get_grouped_opcodes a b n = [] := by
  simp only [get_grouped_opcodes, h]
  rw [if_true]
  have hf1 : fixFirst n [(⟨.equal, 0, 1, 0, 1⟩ : Opcode)] =
      [⟨.equal, max 0 (1 - n), 1, max 0 (1 - n), 1⟩] := by
    simp [fixFirst]
  rw [hf1]
  have hf2 : fixLast n
      [(⟨.equal, max 0 (1 - n), 1, max 0 (1 - n), 1⟩ : Opcode)] =
      [⟨.equal, max 0 (1 - n), min 1 (max 0 (1 - n) + n),
        max 0 (1 - n), min 1 (max 0 (1 - n) + n)⟩] := by
    simp [fixLast]
  rw [hf2]
  apply groupLoop_single_equal _ _ rfl
  show ¬ (n + n < min 1 (max 0 (1 - n) + n) - max 0 (1 - n))
  omega

theorem grouped_groups_opsCover {a b : List String} {n : ℕ} :
    ∀ g ∈ get_grouped_opcodes a b n,
      g ≠ [] ∧ ∃ x y X Y, opsCover a b x y X Y g := by
  intro g hmem
  by_cases hnil : get_opcodes a b = []
  · rw [grouped_nil_of_codes_nil hnil] at hmem
    simp at hmem
  · simp only [get_grouped_opcodes] at hmem
    rw [if_neg hnil] at hmem
    obtain ⟨i2, j2, hf1⟩ := fixFirst_opsCover (n := n)
      (get_opcodes_opsCover a b)
    obtain ⟨I2, J2, hf2⟩ := fixLast_opsCover (n := n) hf1
    exact groupLoop_groups_opsCover _ [] i2 j2 i2 j2 I2 J2
      (opsCover_nil_intro rfl rfl) hf2 g hmem

/-! ## Hunk-level reconstruction -/

theorem opsCover_last {a b : List String} :
    ∀ {rest : List Opcode} {c : Opcode} {i j I J : ℕ},
      opsCover a b i j I J (c :: rest) →
      (List.getLastD rest c).i2 = I ∧ (List.getLastD rest c).j2 = J := by
  intro rest
  induction rest with
  | nil =>
    intro c i j I J h
    obtain ⟨_, _, _, _, _, _, _, h8⟩ := opsCover_cons_elim h
    exact opsCover_nil_elim h8
  | cons c1 rest2 ih =>
    intro c i j I J h
    obtain ⟨_, _, _, _, _, _, _, h8⟩ := opsCover_cons_elim h
    have hres := ih h8
    rw [List.getLastD_cons]
    exact hres

theorem opsCover_sides {a b : List String} :
    ∀ {g : List Opcode} {i j I J : ℕ}, opsCover a b i j I J g →
      oldSideOf a g = sliceList a i I ∧
      newSideOf a b g = sliceList b j J := by
  intro g
  induction g with
  | nil =>
    intro i j I J h
    obtain ⟨e1, e2⟩ := opsCover_nil_elim h
    subst e1; subst e2
    constructor <;> simp [oldSideOf, newSideOf, sliceList]
  | cons c rest ih =>
    intro i j I J h
    obtain ⟨g1, g2, g3, g4, g5, g6, g7, g8⟩ := opsCover_cons_elim h
    obtain ⟨ho, hn⟩ := ih g8
    obtain ⟨hle1, hle2⟩ := opsCover_le g8
    constructor
    · show (match c.tag with
        | Tag.equal => sliceList a c.i1 c.i2
        | Tag.replace => sliceList a c.i1 c.i2
        | Tag.delete => sliceList a c.i1 c.i2
        | Tag.insert => []) ++ oldSideOf a rest = sliceList a i I
      rw [ho]
      cases hc : c.tag with
      | equal =>
        rw [g1]
        exact sliceList_append a g3 hle1
      | replace =>
        rw [g1]
        exact sliceList_append a g3 hle1
      | delete =>
        rw [g1]
        exact sliceList_append a g3 hle1
      | insert =>
        have he : c.i2 = c.i1 := g6 hc
        rw [List.nil_append, he, g1]
    · show (match c.tag with
        | Tag.equal => sliceList a c.i1 c.i2
        | Tag.replace => sliceList b c.j1 c.j2
        | Tag.delete => []
        | Tag.insert => sliceList b c.j1 c.j2) ++ newSideOf a b rest =
          sliceList b j J
      rw [hn]
      cases hc : c.tag with
      | equal =>
        obtain ⟨w, hmr, hba, hbb⟩ := g5 hc
        have hslice : sliceList a c.i1 c.i2 = sliceList b c.j1 c.j2 := by
          have e1 : c.i2 = c.i1 + (c.i2 - c.i1) := by omega
          have e2 : c.j2 = c.j1 + (c.i2 - c.i1) := by omega
          rw [e1, e2]
          exact matchRun_slice_eq hmr (by omega) (by omega)
        rw [hslice, g2]
        exact sliceList_append b g4 hle2
      | replace =>
        rw [g2]
        exact sliceList_append b g4 hle2
      | insert =>
        rw [g2]
        exact sliceList_append b g4 hle2
      | delete =>
        have he : c.j2 = c.j1 := g7 hc
        rw [List.nil_append, he, g2]

/-- **C7** (amended).  Each hunk of the unified diff reconstructs the
corresponding *slices* of the inputs: its context lines followed in order
by its removed lines equal `old[i1:i2]` for the hunk's old-file range, and
its context lines with its added lines equal `new[j1:j2]` for the hunk's
new-file range.  (The full sequences are reconstructed only when the hunks
cover them, which the context-3 truncation deliberately avoids.) -/
theorem C7_hunk_reconstruction (a b : List String) (n : ℕ)
    (g : List Opcode) (hg : g ∈ get_grouped_opcodes a b n) :
    g ≠ [] ∧
    oldSideOf a g =
      sliceList a ((g.headD ⟨.equal, 0, 0, 0, 0⟩).i1)
        ((g.getLastD ⟨.equal, 0, 0, 0, 0⟩).i2) ∧
    newSideOf a b g =
      sliceList b ((g.headD ⟨.equal, 0, 0, 0, 0⟩).j1)
        ((g.getLastD ⟨.equal, 0, 0, 0, 0⟩).j2) := by
  obtain ⟨hne, x, y, X, Y, hcov⟩ := grouped_groups_opsCover g hg
  rcases g with _ | ⟨c, rest⟩
  · exact absurd rfl hne
  · obtain ⟨g1, g2, _, _, _, _, _, _⟩ := opsCover_cons_elim hcov
    obtain ⟨l1, l2⟩ := opsCover_last hcov
    obtain ⟨ho, hn⟩ := opsCover_sides hcov
    refine ⟨hne, ?_, ?_⟩
    · simp only [List.headD_cons, List.getLastD_cons]
      rw [ho, g1, l1]
    · simp only [List.headD_cons, List.getLastD_cons]
      rw [hn, g2, l2]

theorem C7_hunk_reconstruction_witness :
    (([⟨Tag.equal, 4, 7, 4, 7⟩, ⟨Tag.replace, 7, 8, 7, 8⟩] : List Opcode) ∈
      get_grouped_opcodes ["a", "b", "c", "d", "e", "f", "g", "h"]
        ["a", "b", "c", "d", "e", "f", "g", "X"] 3) ∧
    (([⟨Tag.equal, 4, 7, 4, 7⟩, ⟨Tag.replace, 7, 8, 7, 8⟩] : List Opcode) ≠
      [] ∧
    oldSideOf ["a", "b", "c", "d", "e", "f", "g", "h"]
        [⟨Tag.equal, 4, 7, 4, 7⟩, ⟨Tag.replace, 7, 8, 7, 8⟩] =
      sliceList ["a", "b", "c", "d", "e", "f", "g", "h"]
        ((([⟨Tag.equal, 4, 7, 4, 7⟩, ⟨Tag.replace, 7, 8, 7, 8⟩] :
            List Opcode).headD ⟨.equal, 0, 0, 0, 0⟩).i1)
        ((([⟨Tag.equal, 4, 7, 4, 7⟩, ⟨Tag.replace, 7, 8, 7, 8⟩] :
            List Opcode).getLastD ⟨.equal, 0, 0, 0, 0⟩).i2) ∧
    newSideOf ["a", "b", "c", "d", "e", "f", "g", "h"]
        ["a", "b", "c", "d", "e", "f", "g", "X"]
        [⟨Tag.equal, 4, 7, 4, 7⟩, ⟨Tag.replace, 7, 8, 7, 8⟩] =
      sliceList ["a", "b", "c", "d", "e", "f", "g", "X"]
        ((([⟨Tag.equal, 4, 7, 4, 7⟩, ⟨Tag.replace, 7, 8, 7, 8⟩] :
            List Opcode).headD ⟨.equal, 0, 0, 0, 0⟩).j1)
        ((([⟨Tag.equal, 4, 7, 4, 7⟩, ⟨Tag.replace, 7, 8, 7, 8⟩] :
            List Opcode).getLastD ⟨.equal, 0, 0, 0, 0⟩).j2)) :=
  ⟨by decide,
   C7_hunk_reconstruction ["a", "b", "c", "d", "e", "f", "g", "h"]
     ["a", "b", "c", "d", "e", "f", "g", "X"] 3
     [⟨Tag.equal, 4, 7, 4, 7⟩, ⟨Tag.replace, 7, 8, 7, 8⟩] (by decide)⟩

end ABET
